import Mathlib

/-!
# Prometheos alert dashboard: search filter, merge, snapshot and silence ledger

A shallow embedding of the core of `main.go` (`searchService`, `jsonToStruct`,
`sortServerList`, `checkUpdate`, the `AlertStore` and the functions on the file
`silencedAlerts`) together with the properties its specification states about
them.

Modelling conventions
* A Go `string` is modelled as the list of its Unicode code points
  (`GoString`).  Every string the program handles is decoded JSON or form text;
  for valid UTF-8 the byte-wise operations of Go (`==`, `<`, `s[0] == '!'`,
  `s[1:]` after a leading `'!'`, `strings.Contains`, `strings.Split` on an
  ASCII separator) coincide with the same operations on code points.
* `strings.ToLower` maps `unicode.ToLower` over the runes of a string.  The
  case table of the Go `unicode` package is not part of the repository, so the
  per-rune mapping is a parameter `lowerRune`; concrete evaluations use
  `asciiToLower`, which agrees with Go on ASCII text.
* A Go `map[string]serverInfo` is an association list with at most one entry
  per key (`ServerMap`); `ServerMap.get` is `v, ok := m[k]` and
  `ServerMap.set` is `m[k] = v`.
* A decoded JSON document (`interface{}` built by `encoding/json`) is a
  `JSONValue`; a `float64` is carried by the text `%v` prints for it.
* The file `silencedAlerts` is explicit state (`Ledger`): its text when it
  exists, and whether it can be opened for reading and for writing.  The
  functions that touch it take the ledger and return the ledger afterwards.
  `bufio.Scanner` is modelled with its line splitting and its token limit.
* The `AlertStore` is its two fields; the lock has no counterpart, calls are
  run one after the other.
-/

namespace Prometheos

/-! ## Strings -/

/-- A Go string, as the list of its code points. -/
abbrev GoString := List Char

/-- Go `unicode.IsSpace`: the code points with the Unicode `White_Space` property. -/
def isSpace (c : Char) : Bool :=
  let n := c.toNat
  (0x09 ≤ n && n ≤ 0x0D) || n == 0x20 || n == 0x85 || n == 0xA0 || n == 0x1680 ||
  (0x2000 ≤ n && n ≤ 0x200A) || n == 0x2028 || n == 0x2029 || n == 0x202F ||
  n == 0x205F || n == 0x3000

/-- Go `strings.TrimSpace`: remove all leading and trailing white space. -/
def TrimSpace (s : GoString) : GoString :=
  ((s.dropWhile isSpace).reverse.dropWhile isSpace).reverse

/-- Go `strings.ToLower`, relative to the per-rune mapping `lowerRune`
(`unicode.ToLower`). -/
def ToLower (lowerRune : Char → Char) (s : GoString) : GoString :=
  s.map lowerRune

/-- The restriction of `unicode.ToLower` to ASCII: `'A'..'Z'` go to `'a'..'z'`,
every other code point is left alone. -/
def asciiToLower (c : Char) : Char :=
  if 'A' ≤ c ∧ c ≤ 'Z' then Char.ofNat (c.toNat + 32) else c

/-- Go `strings.HasPrefix s pre`: does `s` begin with `pre`? -/
def startsWith : GoString → GoString → Bool
  | _, [] => true
  | [], _ :: _ => false
  | c :: cs, p :: ps => if c = p then startsWith cs ps else false

/-- Go `strings.Contains s substr`: `substr` occurs in `s` as a contiguous
block. -/
def Contains : GoString → GoString → Bool
  | [], substr => startsWith [] substr
  | c :: cs, substr => startsWith (c :: cs) substr || Contains cs substr

/-- Go `strings.Split s sep` for a one-character separator `sep` (the two call
sites split on `"T"` and on `"."`).  The result always has at least one
element. -/
def Split : GoString → Char → List GoString
  | [], _ => [[]]
  | c :: cs, sep =>
    if c = sep then [] :: Split cs sep
    else
      match Split cs sep with
      | [] => [[c]]
      | p :: ps => (c :: p) :: ps

/-- Go `a < b` on strings: lexicographic order (byte-wise in Go, which for
UTF-8 text is the lexicographic order of the code points). -/
def strLt : GoString → GoString → Bool
  | [], [] => false
  | [], _ :: _ => true
  | _ :: _, [] => false
  | a :: as, b :: bs =>
    if a < b then true else if b < a then false else strLt as bs

/-! ## Records -/

/-- The Go struct `serverInfo`: one server's alert information. -/
structure serverInfo where
  Account : GoString
  Hostname : GoString
  Location : GoString
  Prom : GoString
  Time : GoString
  Service : List GoString
  UID : GoString
  Silenced : Bool
deriving DecidableEq

/-- The zero value of `serverInfo` (`var x serverInfo`). -/
def serverInfo.zero : serverInfo :=
  { Account := [], Hostname := [], Location := [], Prom := [], Time := [],
    Service := [], UID := [], Silenced := false }

/-- The reserved UID `"TS"` of the timestamp entry. -/
def TS : GoString := ['T', 'S']

/-! ## searchService -/

/-- The inner loop of `searchService` over `list[k].Service`: is `critLower`
contained in the lower-cased form of some service name? -/
def serviceLoop (lowerRune : Char → Char) (critLower : GoString) : List GoString → Bool
  | [] => false
  | s :: rest =>
    if Contains (ToLower lowerRune s) critLower then true
    else serviceLoop lowerRune critLower rest

/-- The value of `found` for one record at the end of the loop body of
`searchService`. -/
def foundIn (lowerRune : Char → Char) (critLower : GoString) (r : serverInfo) : Bool :=
  let found :=
    Contains (ToLower lowerRune r.UID) critLower ||
    Contains (ToLower lowerRune r.Account) critLower ||
    Contains (ToLower lowerRune r.Hostname) critLower ||
    Contains (ToLower lowerRune r.Location) critLower ||
    Contains (ToLower lowerRune r.Prom) critLower ||
    Contains (ToLower lowerRune r.Time) critLower
  if !found then serviceLoop lowerRune critLower r.Service else found

/-- The main loop `for k := range list` of `searchService`; `tempMap` is the
slice built so far and `includeMode` the Go variable `include`. -/
def searchLoop (lowerRune : Char → Char) (critLower : GoString) (includeMode : Bool) :
    List serverInfo → List serverInfo → List serverInfo
  | [], tempMap => tempMap
  | r :: rest, tempMap =>
    if r.UID = TS then searchLoop lowerRune critLower includeMode rest tempMap
    else
      let found := foundIn lowerRune critLower r
      if !includeMode then
        if !found then searchLoop lowerRune critLower includeMode rest (tempMap ++ [r])
        else searchLoop lowerRune critLower includeMode rest tempMap
      else if found then searchLoop lowerRune critLower includeMode rest (tempMap ++ [r])
      else searchLoop lowerRune critLower includeMode rest tempMap

/-- The part of `searchService` after the leading `'!'` has been examined:
`crit` is the criterion with the `'!'` removed and `includeMode` the Go variable
`include`. -/
def searchFiltered (lowerRune : Char → Char) (includeMode : Bool) (crit : GoString)
    (list : List serverInfo) : List serverInfo :=
  if crit.length = 0 then list
  else
    let critLower := ToLower lowerRune crit
    let tempMap := searchLoop lowerRune critLower includeMode list []
    match list.getLast? with
    | some last => if last.UID = TS then tempMap ++ [last] else tempMap
    | none => tempMap

/-- The Go function `searchService(crit, list)`. -/
def searchService (lowerRune : Char → Char) (crit : GoString) (list : List serverInfo) :
    List serverInfo :=
  if crit.length = 0 then list
  else
    match TrimSpace crit with
    | [] => searchFiltered lowerRune true [] list
    | c :: rest =>
      if c = '!' then searchFiltered lowerRune false rest list
      else searchFiltered lowerRune true (c :: rest) list

/-! ## Reference definitions for the search filter

These follow the wording of the specification and are compared with the code
above. -/

/-- The query with one leading `'!'` removed. -/
def stripBang : GoString → GoString
  | [] => []
  | c :: rest => if c = '!' then rest else c :: rest

/-- Whether the query starts with `'!'` (exclude mode). -/
def leadingBang : GoString → Bool
  | [] => false
  | c :: _ => decide (c = '!')

/-- The match test of the specification: the lower-cased query is a substring
of the lower-cased UID, Account, Hostname, Location, Prom, Time or of some
entry of Service. -/
def matchesQuery (lowerRune : Char → Char) (c : GoString) (r : serverInfo) : Prop :=
  ∃ f ∈ r.UID :: r.Account :: r.Hostname :: r.Location :: r.Prom :: r.Time :: r.Service,
    ToLower lowerRune c <:+: ToLower lowerRune f

instance (lowerRune : Char → Char) (c : GoString) (r : serverInfo) :
    Decidable (matchesQuery lowerRune c r) := by
  unfold matchesQuery; infer_instance

/-- The last element of the list when its UID is `"TS"`, as a list of length
at most one. -/
def sentinelTail (S : List serverInfo) : List serverInfo :=
  match S.getLast? with
  | some last => if last.UID = TS then [last] else []
  | none => []

/-- The reference filter: the non-sentinel records that match (include mode) or
do not match (exclude mode), in order, followed by the trailing sentinel. -/
def searchReference (lowerRune : Char → Char) (q : GoString) (S : List serverInfo) :
    List serverInfo :=
  let t := TrimSpace q
  let c := stripBang t
  S.filter (fun r => decide (r.UID ≠ TS) &&
      (if leadingBang t then !decide (matchesQuery lowerRune c r)
       else decide (matchesQuery lowerRune c r)))
    ++ sentinelTail S

/-- All characters of the string are white space. -/
def allSpace (s : GoString) : Prop := ∀ c ∈ s, isSpace c = true

instance (s : GoString) : Decidable (allSpace s) := by
  unfold allSpace; infer_instance

/-! ## Example records -/

/-- An alert record whose hostname is `db01`. -/
def db01 : serverInfo :=
  { Account := "acme".toList, Hostname := "db01".toList, Location := "lan".toList,
    Prom := "n01".toList, Time := "2024-01-01 10:00:00".toList,
    Service := ["disk-full".toList], UID := "u1".toList, Silenced := false }

/-- An alert record whose hostname is `db02`. -/
def db02 : serverInfo :=
  { Account := "acme".toList, Hostname := "db02".toList, Location := "lan".toList,
    Prom := "n01".toList, Time := "2024-01-01 11:00:00".toList,
    Service := ["cpu-high".toList], UID := "u2".toList, Silenced := false }

/-- The record `checkUpdate` appends: only `Time` and `UID` are set. -/
def timeStampEntry (timeString : GoString) : serverInfo :=
  { serverInfo.zero with Time := timeString, UID := TS }

/-! ## Decoded JSON -/

/-- A decoded JSON value, the dynamic content of a Go `interface{}` built by
`encoding/json`: `nil`, `bool`, `float64` (carried by the text `%v` prints for
it), `string`, `[]interface{}` or `map[string]interface{}`. -/
inductive JSONValue where
  | null
  | bool (b : Bool)
  | number (text : GoString)
  | str (s : GoString)
  | array (items : List JSONValue)
  | object (fields : List (GoString × JSONValue))

/-- A Go `map[string]interface{}`, as an association list read at the first
entry of a key. -/
abbrev JSONObject := List (GoString × JSONValue)

/-- The map read `m[k]`: the value stored under `k`, or `nil` when the key is
absent. -/
def index : JSONObject → GoString → JSONValue
  | [], _ => JSONValue.null
  | (k', v) :: rest, k => if k' = k then v else index rest k

/-- The comparison `v == "s"` of an `interface{}` with a string constant: true
exactly when `v` holds a string equal to `s`. -/
def isString (v : JSONValue) (s : GoString) : Bool :=
  match v with
  | JSONValue.str t => decide (t = s)
  | _ => false

/-- Insert a rendered `key:value` pair in a list sorted by key, in place of the
pair with the same key when there is one (the entries are inserted last to
first, so the first entry of a key in the association list wins). -/
def insertField (kv : GoString × GoString) : List (GoString × GoString) →
    List (GoString × GoString)
  | [] => [kv]
  | x :: xs =>
    if x.1 = kv.1 then kv :: xs
    else if strLt kv.1 x.1 then kv :: x :: xs
    else x :: insertField kv xs

/-- The text between the brackets of a printed map: `k:v` pairs separated by a
blank. -/
def joinFields : List (GoString × GoString) → GoString
  | [] => []
  | [kv] => kv.1 ++ ':' :: kv.2
  | kv :: rest => kv.1 ++ ':' :: kv.2 ++ ' ' :: joinFields rest

mutual
/-- Go `fmt.Sprintf("%v", v)` for a decoded JSON value: `<nil>` for `nil`, a
string as it is, slices as `[a b]`, maps as `map[k:v ...]` with sorted keys. -/
def Sprintf : JSONValue → GoString
  | JSONValue.null => "<nil>".toList
  | JSONValue.bool b => if b then "true".toList else "false".toList
  | JSONValue.number text => text
  | JSONValue.str s => s
  | JSONValue.array items => '[' :: (sprintItems items ++ [']'])
  | JSONValue.object fields =>
    "map[".toList ++ (joinFields ((sprintFields fields).foldr insertField []) ++ [']'])
/-- The elements of a slice, each printed with `%v`, separated by a blank. -/
def sprintItems : List JSONValue → GoString
  | [] => []
  | x :: xs =>
    Sprintf x ++ (match xs with
      | [] => []
      | _ :: _ => ' ' :: sprintItems xs)
/-- The entries of a map with their values printed with `%v`. -/
def sprintFields : List (GoString × JSONValue) → List (GoString × GoString)
  | [] => []
  | (k, v) :: rest => (k, Sprintf v) :: sprintFields rest
end

/-! ## jsonToStruct -/

/-- A Go `map[string]serverInfo`, as an association list with at most one
entry per key. -/
abbrev ServerMap := List (GoString × serverInfo)

/-- The map read `v, ok := m[k]`. -/
def mapGet : ServerMap → GoString → Option serverInfo
  | [], _ => none
  | (k', v) :: rest, k => if k' = k then some v else mapGet rest k

/-- The map write `m[k] = v`. -/
def mapSet : ServerMap → GoString → serverInfo → ServerMap
  | [], k, v => [(k, v)]
  | (k', v') :: rest, k, v =>
    if k' = k then (k, v) :: rest else (k', v') :: mapSet rest k v

/-- The normalised timestamp `timeStamp` computed from `timeStr` in
`jsonToStruct`: split on `"T"`; with at least two parts, the first part, a
blank, and the second part up to its first `"."`; otherwise `timeStr`. -/
def timeStampOf (timeStr : GoString) : GoString :=
  match Split timeStr 'T' with
  | t0 :: t1 :: _ => t0 ++ ' ' :: (Split t1 '.').headD []
  | _ => timeStr

/-- The body of the inner loop of `jsonToStruct` for one alert item `vv`. -/
def mergeItem (serverlist : ServerMap) (vv : JSONObject) : ServerMap :=
  match index vv "labels".toList with
  | JSONValue.object labels =>
    let uid := Sprintf (index labels "uniq_id".toList)
    let timeStr := Sprintf (index vv "startsAt".toList)
    let timeStamp := timeStampOf timeStr
    match mapGet serverlist uid with
    | none =>
      let tempSrvStruct : serverInfo :=
        if isString (index labels "group".toList) "guardian".toList then
          { Hostname := Sprintf (index labels "hostname".toList)
            Account := Sprintf (index labels "policy_description".toList)
            Location := Sprintf (index labels "disksafe_description".toList)
            Prom := Sprintf (index labels "prom_serv".toList)
            Service := [Sprintf (index labels "alertname".toList)]
            Time := timeStamp
            UID := uid
            Silenced := false }
        else
          { Hostname := Sprintf (index labels "Hostname".toList)
            Account := Sprintf (index labels "Account".toList)
            Location := Sprintf (index labels "Location".toList)
            Prom := Sprintf (index labels "prom_serv".toList)
            Service := [Sprintf (index labels "alertname".toList)]
            Time := timeStamp
            UID := uid
            Silenced := false }
      mapSet serverlist tempSrvStruct.UID tempSrvStruct
    | some cur =>
      let alertName := Sprintf (index labels "alertname".toList)
      let found := decide (alertName ∈ cur.Service)
      let serverlist1 :=
        if !found then
          let temp := cur.Service ++ [alertName]
          match mapGet serverlist uid with
          | some key => mapSet serverlist uid { key with Service := temp }
          | none => serverlist
        else serverlist
      match mapGet serverlist1 uid with
      | some key =>
        if strLt timeStamp key.Time then mapSet serverlist1 uid { key with Time := timeStamp }
        else serverlist1
      | none => serverlist1
  | _ => serverlist

/-- The Go function `jsonToStruct(jsonData)`: every item of every payload, in
order, merged into an initially empty map. -/
def jsonToStruct (jsonData : List (List JSONObject)) : ServerMap :=
  jsonData.foldl (fun serverlist v => v.foldl mergeItem serverlist) []

/-! ## sortServerList and checkUpdate -/

/-- The local type `item` of `sortServerList`. -/
structure item where
  Key : GoString
  Time : GoString
deriving DecidableEq

/-- The comparison function handed to `sort.Slice`. -/
def itemLess (a b : item) : Bool :=
  if a.Time = b.Time then strLt a.Key b.Key else strLt a.Time b.Time

/-- Insert an item in a list sorted by `itemLess`. -/
def insertItem (x : item) : List item → List item
  | [] => [x]
  | y :: ys => if itemLess x y then x :: y :: ys else y :: insertItem x ys

/-- The effect of `sort.Slice(keys, less)`: the keys of a map are distinct, so
`itemLess` is a strict total order on the slice and the sorted arrangement is
unique; it is computed here by insertion. -/
def sortSlice (keys : List item) : List item :=
  keys.foldr insertItem []

/-- The Go function `sortServerList(list)`. -/
def sortServerList (list : ServerMap) : List serverInfo :=
  let keys : List item :=
    list.map (fun kv => { Key := kv.1, Time := ((mapGet list kv.1).getD serverInfo.zero).Time })
  let keys := sortSlice keys
  keys.map (fun k => (mapGet list k.Key).getD serverInfo.zero)

/-- The snapshot `checkUpdate` hands to `store.Set`, for the payloads
`jsonData` that `getJSON` returned and the clock text `timeString`. -/
def checkUpdate (timeString : GoString) (jsonData : List (List JSONObject)) :
    List serverInfo :=
  let servMap := jsonToStruct jsonData
  let servList := sortServerList servMap
  servList ++ [timeStampEntry timeString]

/-! ## Reference definitions for the merge -/

/-- What `jsonToStruct` reads from one alert item that carries a labels
object. -/
structure Alert where
  uid : GoString
  timeStamp : GoString
  alertName : GoString
  labels : JSONObject

/-- The alert read from an item, when the item has a `labels` object. -/
def alertOf (vv : JSONObject) : Option Alert :=
  match index vv "labels".toList with
  | JSONValue.object labels =>
    some { uid := Sprintf (index labels "uniq_id".toList)
           timeStamp := timeStampOf (Sprintf (index vv "startsAt".toList))
           alertName := Sprintf (index labels "alertname".toList)
           labels := labels }
  | _ => none

/-- The alerts of a raw payload list in arrival order: sources in order, items
in order, items without a labels object left out. -/
def alerts (P : List (List JSONObject)) : List Alert :=
  P.flatten.filterMap alertOf

/-- The alerts of `P` whose `uniq_id` is `u`, in arrival order. -/
def alertsFor (P : List (List JSONObject)) (u : GoString) : List Alert :=
  (alerts P).filter (fun a => decide (a.uid = u))

/-- A list of names with every repeat of an earlier name removed. -/
def firstOccurrences : List GoString → List GoString
  | [] => []
  | n :: rest => n :: (firstOccurrences rest).filter (fun m => decide (m ≠ n))

/-- A JSON object with the given string-valued entries. -/
def stringFields (kvs : List (String × String)) : JSONObject :=
  kvs.map (fun kv => (kv.1.toList, JSONValue.str kv.2.toList))

/-- An alert item with the given string-valued labels and `startsAt`. -/
def alertItem (labels : List (String × String)) (startsAt : String) : JSONObject :=
  [("labels".toList, JSONValue.object (stringFields labels)),
   ("startsAt".toList, JSONValue.str startsAt.toList)]

/-- The payloads of the merge scenario: two sources, each with one alert for UID
`abc`. -/
def scenarioPayload : List (List JSONObject) :=
  [[alertItem [("uniq_id", "abc"), ("alertname", "disk-full")] "2024-01-01T10:00:00"],
   [alertItem [("uniq_id", "abc"), ("alertname", "cpu-high")] "2024-01-01T09:00:00"]]

/-- The record `jsonToStruct` stores for the first alert of a UID. -/
def newRecord (a : Alert) : serverInfo :=
  if isString (index a.labels "group".toList) "guardian".toList then
    { Hostname := Sprintf (index a.labels "hostname".toList)
      Account := Sprintf (index a.labels "policy_description".toList)
      Location := Sprintf (index a.labels "disksafe_description".toList)
      Prom := Sprintf (index a.labels "prom_serv".toList)
      Service := [a.alertName]
      Time := a.timeStamp
      UID := a.uid
      Silenced := false }
  else
    { Hostname := Sprintf (index a.labels "Hostname".toList)
      Account := Sprintf (index a.labels "Account".toList)
      Location := Sprintf (index a.labels "Location".toList)
      Prom := Sprintf (index a.labels "prom_serv".toList)
      Service := [a.alertName]
      Time := a.timeStamp
      UID := a.uid
      Silenced := false }

/-- The record `jsonToStruct` stores after a further alert of a UID that is
already in the map with record `r`. -/
def updateRecord (r : serverInfo) (a : Alert) : serverInfo :=
  let r1 : serverInfo :=
    if a.alertName ∈ r.Service then r else { r with Service := r.Service ++ [a.alertName] }
  if strLt a.timeStamp r1.Time then { r1 with Time := a.timeStamp } else r1

/-- The record stored under `a.uid` after the alert `a`, from what was stored
before. -/
def stepRecord (o : Option serverInfo) (a : Alert) : serverInfo :=
  match o with
  | none => newRecord a
  | some r => updateRecord r a

/-- The record built from the alerts of one UID, in arrival order. -/
def recordOf (as : List Alert) : Option serverInfo :=
  as.foldl (fun o a => some (stepRecord o a)) none

/-- A payload with two alerts of the `guardian` group for UID `g1`; the first
has no `policy_description` label. -/
def guardianPayload : List (List JSONObject) :=
  [[alertItem [("uniq_id", "g1"), ("group", "guardian"), ("hostname", "backup01"),
      ("disksafe_description", "ds7"), ("prom_serv", "n01"), ("alertname", "backup-failed")]
      "2024-02-02T01:02:03.5Z",
    alertItem [("uniq_id", "g1"), ("Hostname", "web01"), ("Account", "acme"),
      ("Location", "lan"), ("prom_serv", "n02"), ("alertname", "backup-failed")]
      "2024-02-02T01:00:00Z"]]

/-! ## The silence ledger -/

/-- The file `silencedAlerts` as the program sees it: its text when it exists,
and whether the operating system lets the process open it for reading and for
writing (creating it when it is absent).  A write to an opened file is taken to
complete. -/
structure Ledger where
  file : Option GoString
  canRead : Bool
  canWrite : Bool
deriving DecidableEq

/-- The errors of the ledger operations: the file cannot be opened, or
`bufio.Scanner` stops with `ErrTooLong`. -/
inductive LedgerError where
  | openFailed
  | tooLong
deriving DecidableEq

deriving instance DecidableEq for Except

/-- The constant `bufio.MaxScanTokenSize`, the size in bytes at which the buffer
of a `bufio.Scanner` stops growing. -/
def maxScanTokenSize : Nat := 64 * 1024

/-- The length of a string in bytes (`len(s)` in Go), from the UTF-8 size of its
code points. -/
def byteLen (s : GoString) : Nat :=
  (s.map Char.utf8Size).sum

/-- The lines `bufio.ScanLines` cuts a text into, before the trailing `'\r'` is
dropped: `cur` is the part of the current line read so far.  Every `'\n'` ends a
line; text after the last `'\n'` is a line when it is not empty. -/
def rawLines (cur : GoString) : GoString → List GoString
  | [] => if cur = [] then [] else [cur]
  | c :: cs => if c = '\n' then cur :: rawLines [] cs else rawLines (cur ++ [c]) cs

/-- The helper `dropCR` of `bufio.ScanLines`: drop one trailing `'\r'`. -/
def dropCR (line : GoString) : GoString :=
  if line.getLast? = some '\r' then line.dropLast else line

/-- The loop `for scanner.Scan()` of `getSilencedHosts` over the lines still to
be read; `hosts` is the slice built so far.  A line of `maxScanTokenSize` bytes
or more does not fit the buffer and the scanner stops with `ErrTooLong`. -/
def scanHosts : List GoString → List GoString → Except LedgerError (List GoString)
  | [], hosts => Except.ok hosts
  | line :: rest, hosts =>
    if maxScanTokenSize ≤ byteLen line then Except.error LedgerError.tooLong
    else
      let host := TrimSpace (dropCR line)
      if host ≠ [] then scanHosts rest (hosts ++ [host]) else scanHosts rest hosts

/-- The Go function `addSilencedAlert(alert)`: append `alert + "\n"` to the
file, creating it when it is absent.  The result is the ledger afterwards, or
the error when the file cannot be opened. -/
def addSilencedAlert (L : Ledger) (alert : GoString) : Except LedgerError Ledger :=
  if L.canWrite then
    Except.ok { L with file := some (L.file.getD [] ++ (alert ++ ['\n'])) }
  else Except.error LedgerError.openFailed

/-- The Go function `getSilencedHosts()`: no host when the file does not exist,
otherwise the trimmed non-empty lines of the file.  On an error Go returns the
hosts read so far along with the error; both callers drop them. -/
def getSilencedHosts (L : Ledger) : Except LedgerError (List GoString) :=
  match L.file with
  | none => Except.ok []
  | some text =>
    if L.canRead then scanHosts (rawLines [] text) []
    else Except.error LedgerError.openFailed

/-- The Go function `setSilencedAlerts(servers)`. -/
def setSilencedAlerts (L : Ledger) (servers : List serverInfo) : List serverInfo :=
  match getSilencedHosts L with
  | Except.error _ => servers
  | Except.ok hosts =>
    servers.map (fun s => if s.Hostname ∈ hosts then { s with Silenced := true } else s)

/-- The text `removeSilenced` writes: every host followed by `"\n"`. -/
def writeHosts : List GoString → GoString
  | [] => []
  | v :: rest => v ++ '\n' :: writeHosts rest

/-- The Go function `removeSilenced(servers, silenced)`: the returned slice and
the ledger afterwards. -/
def removeSilenced (L : Ledger) (servers : List serverInfo) (silenced : GoString) :
    List serverInfo × Ledger :=
  match getSilencedHosts L with
  | Except.error _ => (servers, L)
  | Except.ok hosts =>
    let newHosts := hosts.filter (fun h => decide (h ≠ silenced))
    if L.canWrite then
      (servers.map (fun s => if s.Hostname = silenced then { s with Silenced := false } else s),
        { L with file := some (writeHosts newHosts) })
    else (servers, L)

/-! ## The snapshot store -/

/-- The Go struct `AlertStore` without its lock: the published slice and the
instant of the last `Set` (a `time.Time`, as a number; the zero value is `0`). -/
structure AlertStore where
  servers : List serverInfo
  lastSync : Nat

/-- The Go function `NewAlertStore()`. -/
def NewAlertStore : AlertStore :=
  { servers := [], lastSync := 0 }

/-- The method `(*AlertStore).Get()`: a copy of the published slice, and the
store after the call. -/
def AlertStore.Get (s : AlertStore) : List serverInfo × AlertStore :=
  (s.servers, s)

/-- The method `(*AlertStore).Set(servers)`, where `now` is the value of
`time.Now()`: the store after the call. -/
def AlertStore.Set (s : AlertStore) (servers : List serverInfo) (now : Nat) : AlertStore :=
  { s with servers := servers, lastSync := now }

/-- A call on the store. -/
inductive StoreCall where
  | set (servers : List serverInfo) (now : Nat)
  | get

/-- Run a sequence of calls, one after the other: the store at the end and the
results of the `Get` calls, in order. -/
def runCalls (s : AlertStore) : List StoreCall → AlertStore × List (List serverInfo)
  | [] => (s, [])
  | StoreCall.set servers now :: rest => runCalls (s.Set servers now) rest
  | StoreCall.get :: rest =>
    let out := s.Get
    let tail := runCalls out.2 rest
    (tail.1, out.1 :: tail.2)

/-- The argument of a `Set` call. -/
def setArgument : StoreCall → Option (List serverInfo)
  | StoreCall.set servers _ => some servers
  | StoreCall.get => none

/-- The argument of the most recent `Set` among the calls `pre`, the empty list
when there is none. -/
def lastSet (pre : List StoreCall) : List serverInfo :=
  ((pre.filterMap setArgument).getLast?).getD []

/-- What the specification expects of the `Get` calls of a sequence that comes
after the calls `pre`: each returns the argument of the most recent preceding
`Set`. -/
def expectedGets (pre : List StoreCall) : List StoreCall → List (List serverInfo)
  | [] => []
  | StoreCall.get :: rest => lastSet pre :: expectedGets (pre ++ [StoreCall.get]) rest
  | StoreCall.set servers now :: rest =>
    expectedGets (pre ++ [StoreCall.set servers now]) rest

/-! ## Reference definitions for the ordering -/

/-- The order of the specification on records: earlier `Time` first, and the
smaller `UID` first when the times are equal. -/
def recordBefore (a b : serverInfo) : Prop :=
  strLt a.Time b.Time = true ∨ (a.Time = b.Time ∧ strLt a.UID b.UID = true)

/-- The shape of the maps `jsonToStruct` builds: the keys are distinct and every
record is stored under its own UID. -/
def WellKeyed (m : ServerMap) : Prop :=
  (m.map Prod.fst).Nodup ∧ ∀ kv ∈ m, kv.2.UID = kv.1

instance (m : ServerMap) : Decidable (WellKeyed m) := by
  unfold WellKeyed; infer_instance

/-- A map with three records, stored in an order that is not the sorted one. -/
def sampleMap : ServerMap :=
  [("u2".toList, db02),
   ("u3".toList, { db01 with UID := "u3".toList }),
   ("u1".toList, db01)]

/-- The hosts `getSilencedHosts` keeps from the lines of the file: every line
without its trailing `'\r'`, trimmed, when something is left of it. -/
def hostsOf (lines : List GoString) : List GoString :=
  (lines.map (fun line => TrimSpace (dropCR line))).filter (fun host => decide (host ≠ []))

/-- A text that is empty or ends with a line feed, as every text is that
`addSilencedAlert` and `removeSilenced` have written. -/
def Terminated (text : GoString) : Prop :=
  text = [] ∨ text.getLast? = some '\n'

instance (text : GoString) : Decidable (Terminated text) := by
  unfold Terminated; infer_instance

/-- A hostname that a line of the ledger holds as it is: not empty, without
white space at either end, without a line feed, and short enough for the
scanner. -/
def PlainHost (h : GoString) : Prop :=
  TrimSpace h = h ∧ h ≠ [] ∧ '\n' ∉ h ∧ byteLen h < maxScanTokenSize

instance (h : GoString) : Decidable (PlainHost h) := by
  unfold PlainHost; infer_instance

/-- A ledger whose file does not exist and may be created, read and written. -/
def emptyLedger : Ledger :=
  { file := none, canRead := true, canWrite := true }

/-- A ledger whose file holds the single line `db01`. -/
def ledgerDb01 : Ledger :=
  { file := some "db01\n".toList, canRead := true, canWrite := true }

/-- A ledger whose file holds the single line `db01` and cannot be opened for
writing. -/
def readOnlyLedger : Ledger :=
  { file := some "db01\n".toList, canRead := true, canWrite := false }

/-- An alert record whose hostname is `db01` followed by a blank. -/
def db01Padded : serverInfo :=
  { db01 with Hostname := "db01 ".toList }

/-- A ledger in which `db01` and `web` are both entered twice. -/
def ledgerWithDuplicates : Ledger :=
  { file := some "db01\nweb\ndb01\nweb\n".toList, canRead := true, canWrite := true }

/-- The ledger that holds `db01` after `db02` has been silenced. -/
def ledgerDb01Db02 : Ledger :=
  { file := some "db01\ndb02\n".toList, canRead := true, canWrite := true }

/-- The sort key of a record: its UID and its `Time`. -/
def keyOf (r : serverInfo) : item :=
  { Key := r.UID, Time := r.Time }

/-- The entries of the slice `keys` that `sortServerList` builds from a map in
which every key is present once. -/
def itemsOf (m : ServerMap) : List item :=
  m.map (fun kv => { Key := kv.1, Time := kv.2.Time })

/-- A payload with one alert whose `uniq_id` is the reserved text `TS`. -/
def reservedUidPayload : List (List JSONObject) :=
  [[alertItem [("uniq_id", "TS"), ("alertname", "disk-full")] "2024-01-01T10:00:00"]]

/-- The payloads of the merge scenario with the two sources in the other
order. -/
def scenarioPayloadSwapped : List (List JSONObject) :=
  [[alertItem [("uniq_id", "abc"), ("alertname", "cpu-high")] "2024-01-01T09:00:00"],
   [alertItem [("uniq_id", "abc"), ("alertname", "disk-full")] "2024-01-01T10:00:00"]]

/-- An alert item for UID `abc` whose `startsAt` carries fractional seconds. -/
def fractionItem : JSONObject :=
  alertItem [("uniq_id", "abc"), ("alertname", "disk-full")] "2024-01-01T10:00:00.123Z"

/-- An alert item for UID `abc` whose `startsAt` has no fractional seconds. -/
def wholeSecondItem : JSONObject :=
  alertItem [("uniq_id", "abc"), ("alertname", "disk-full")] "2024-01-01T10:00:00"

/-! # Theorems -/

/-! ## Auxiliary facts about the string functions -/

theorem startsWith_iff (s p : GoString) : startsWith s p = true ↔ p <+: s := by
  induction s generalizing p with
  | nil => cases p <;> simp [startsWith]
  | cons c cs ih =>
    cases p with
    | nil => simp [startsWith]
    | cons a as =>
      simp only [startsWith, List.cons_prefix_cons]
      by_cases h : c = a
      · simp [h, ih]
      · simp [h, Ne.symm h]

theorem contains_iff (s t : GoString) : Contains s t = true ↔ t <:+: s := by
  induction s with
  | nil => simp [Contains, startsWith_iff]
  | cons c cs ih =>
    simp only [Contains, Bool.or_eq_true, startsWith_iff, ih, List.infix_cons_iff]

theorem serviceLoop_iff (lowerRune : Char → Char) (critLower : GoString) (l : List GoString) :
    serviceLoop lowerRune critLower l = true ↔
      ∃ s ∈ l, critLower <:+: ToLower lowerRune s := by
  induction l with
  | nil => simp [serviceLoop]
  | cons s rest ih =>
    simp only [serviceLoop, List.mem_cons, exists_eq_or_imp]
    by_cases h : Contains (ToLower lowerRune s) critLower = true
    · simp [h, (contains_iff _ _).1 h]
    · have h2 : ¬ critLower <:+: ToLower lowerRune s := fun hc => h ((contains_iff _ _).2 hc)
      simp [h, h2, ih]

theorem foundIn_iff (lowerRune : Char → Char) (c : GoString) (r : serverInfo) :
    foundIn lowerRune (ToLower lowerRune c) r = true ↔ matchesQuery lowerRune c r := by
  unfold foundIn matchesQuery
  simp only [List.mem_cons, exists_eq_or_imp]
  rw [← serviceLoop_iff]
  simp only [← contains_iff]
  cases Contains (ToLower lowerRune r.UID) (ToLower lowerRune c) <;>
  cases Contains (ToLower lowerRune r.Account) (ToLower lowerRune c) <;>
  cases Contains (ToLower lowerRune r.Hostname) (ToLower lowerRune c) <;>
  cases Contains (ToLower lowerRune r.Location) (ToLower lowerRune c) <;>
  cases Contains (ToLower lowerRune r.Prom) (ToLower lowerRune c) <;>
  cases Contains (ToLower lowerRune r.Time) (ToLower lowerRune c) <;> simp

theorem searchLoop_eq_filter (lowerRune : Char → Char) (c : GoString) (includeMode : Bool)
    (l acc : List serverInfo) :
    searchLoop lowerRune (ToLower lowerRune c) includeMode l acc =
      acc ++ l.filter (fun r => decide (r.UID ≠ TS) &&
        (if includeMode then decide (matchesQuery lowerRune c r)
         else !decide (matchesQuery lowerRune c r))) := by
  induction l generalizing acc with
  | nil => simp [searchLoop]
  | cons r rest ih =>
    simp only [searchLoop, List.filter_cons]
    by_cases hts : r.UID = TS
    · simp [hts, ih]
    · by_cases hm : matchesQuery lowerRune c r
      · have hf := (foundIn_iff lowerRune c r).2 hm
        cases includeMode <;> simp [hts, hm, hf, ih]
      · have hf : foundIn lowerRune (ToLower lowerRune c) r = false := by
          cases h : foundIn lowerRune (ToLower lowerRune c) r
          · rfl
          · exact absurd ((foundIn_iff lowerRune c r).1 h) hm
        cases includeMode <;> simp [hts, hm, hf, ih]

theorem searchFiltered_eq (lowerRune : Char → Char) (includeMode : Bool) (c : GoString)
    (S : List serverInfo) (hc : c ≠ []) :
    searchFiltered lowerRune includeMode c S =
      S.filter (fun r => decide (r.UID ≠ TS) &&
        (if includeMode then decide (matchesQuery lowerRune c r)
         else !decide (matchesQuery lowerRune c r))) ++ sentinelTail S := by
  have hlen : ¬ c.length = 0 := by
    intro h; exact hc (List.length_eq_zero.1 h)
  unfold searchFiltered sentinelTail
  simp only [hlen, if_false, searchLoop_eq_filter, List.nil_append]
  cases S.getLast? with
  | none => simp
  | some last => by_cases h : last.UID = TS <;> simp [h]

theorem trimSpace_eq (s : GoString) :
    TrimSpace s = (s.dropWhile isSpace).rdropWhile isSpace := rfl

theorem rdropWhile_cons (p : Char → Bool) (a : Char) (l : List Char) :
    (a :: l).rdropWhile p =
      if l.rdropWhile p = [] ∧ p a = true then [] else a :: l.rdropWhile p := by
  induction l using List.reverseRecOn with
  | nil =>
    have h : [a] = [] ++ [a] := rfl
    rw [h, List.rdropWhile_concat]
    by_cases hp : p a = true <;> simp [hp]
  | append_singleton l x ih =>
    rw [← List.cons_append, List.rdropWhile_concat, List.rdropWhile_concat]
    by_cases hx : p x = true
    · simp only [hx, if_true]; exact ih
    · simp [hx]

theorem rdropWhile_allSpace (s : GoString) (h : allSpace s) :
    s.rdropWhile isSpace = [] := by
  induction s with
  | nil => rfl
  | cons c cs ih =>
    rw [rdropWhile_cons, ih (fun d hd => h d (List.mem_cons_of_mem _ hd))]
    simp [h c (List.mem_cons_self _ _)]

theorem dropWhile_allSpace (s : GoString) (h : allSpace s) :
    s.dropWhile isSpace = [] := by
  induction s with
  | nil => rfl
  | cons c cs ih =>
    rw [List.dropWhile_cons, if_pos (h c (List.mem_cons_self _ _))]
    exact ih (fun d hd => h d (List.mem_cons_of_mem _ hd))

theorem dropWhile_allSpace_append (a s : GoString) (h : allSpace a) :
    (a ++ s).dropWhile isSpace = s.dropWhile isSpace := by
  induction a with
  | nil => rfl
  | cons c cs ih =>
    rw [List.cons_append, List.dropWhile_cons, if_pos (h c (List.mem_cons_self _ _))]
    exact ih (fun d hd => h d (List.mem_cons_of_mem _ hd))

theorem trimSpace_allSpace (s : GoString) (h : allSpace s) : TrimSpace s = [] := by
  rw [trimSpace_eq, dropWhile_allSpace s h]; rfl

theorem trimSpace_bang (a b : GoString) (ha : allSpace a) (hb : allSpace b) :
    TrimSpace (a ++ '!' :: b) = ['!'] := by
  have hbang : isSpace '!' = false := by decide
  rw [trimSpace_eq, dropWhile_allSpace_append a _ ha, List.dropWhile_cons, hbang]
  simp only [Bool.false_eq_true, if_false]
  rw [rdropWhile_cons, rdropWhile_allSpace b hb]
  simp [hbang]

theorem trimSpace_cons (c : Char) (s : GoString) (hc : isSpace c = false) :
    TrimSpace (c :: s) = c :: s.rdropWhile isSpace := by
  rw [trimSpace_eq, List.dropWhile_cons, hc]
  simp only [Bool.false_eq_true, if_false]
  rw [rdropWhile_cons]
  simp [hc]

theorem stripBang_ne_nil_of (t : GoString) (h : stripBang t ≠ []) : t ≠ [] := by
  intro ht; subst ht; exact h rfl

theorem mem_sentinelTail (S : List serverInfo) (r : serverInfo) (h : r ∈ sentinelTail S) :
    r.UID = TS := by
  unfold sentinelTail at h
  cases hl : S.getLast? with
  | none => simp [hl] at h
  | some last =>
    rw [hl] at h
    by_cases hts : last.UID = TS
    · simp [hts] at h; rw [h]; exact hts
    · simp [hts] at h

theorem searchService_refines (lowerRune : Char → Char) (q : GoString)
    (S : List serverInfo) (hc : stripBang (TrimSpace q) ≠ []) :
    searchService lowerRune q S = searchReference lowerRune q S := by
  have hq : TrimSpace q ≠ [] := stripBang_ne_nil_of _ hc
  have hqlen : ¬ q.length = 0 := by
    intro h
    have : q = [] := List.length_eq_zero.1 h
    subst this
    exact hq (by simp [TrimSpace])
  unfold searchService searchReference
  simp only [hqlen, if_false]
  cases ht : TrimSpace q with
  | nil => exact absurd ht hq
  | cons c rest =>
    rw [ht] at hc
    by_cases hb : c = '!'
    · subst hb
      simp only [stripBang, if_true] at hc
      simp only [if_true, stripBang, leadingBang, decide_True]
      rw [searchFiltered_eq lowerRune false rest S hc]
      simp
    · simp only [hb, if_false, stripBang, leadingBang, decide_False]
      rw [searchFiltered_eq lowerRune true (c :: rest) S (by simp)]
      simp

theorem mem_searchReference (lowerRune : Char → Char) (q : GoString) (S : List serverInfo)
    (r : serverInfo) (hr : r.UID ≠ TS) :
    r ∈ searchReference lowerRune q S ↔
      r ∈ S ∧ (if leadingBang (TrimSpace q) = true
        then ¬ matchesQuery lowerRune (stripBang (TrimSpace q)) r
        else matchesQuery lowerRune (stripBang (TrimSpace q)) r) := by
  unfold searchReference
  simp only [List.mem_append, List.mem_filter]
  constructor
  · rintro (⟨hm, hp⟩ | hs)
    · refine ⟨hm, ?_⟩
      cases hb : leadingBang (TrimSpace q) <;> simp [hb] at hp ⊢ <;> exact hp.2
    · exact absurd (mem_sentinelTail S r hs) hr
  · rintro ⟨hm, hp⟩
    left
    refine ⟨hm, ?_⟩
    cases hb : leadingBang (TrimSpace q) <;> simp [hb] at hp ⊢ <;> exact ⟨hr, hp⟩

theorem count_filter_ite (p : serverInfo → Bool) (S : List serverInfo) (r : serverInfo) :
    (S.filter p).count r = if p r = true then S.count r else 0 := by
  by_cases hp : p r = true
  · rw [if_pos hp]; exact List.count_filter hp
  · rw [if_neg hp]
    exact List.count_eq_zero.2 (fun hmem => hp (List.mem_filter.1 hmem).2)

theorem count_searchReference (lowerRune : Char → Char) (q : GoString) (S : List serverInfo)
    (r : serverInfo) (hr : r.UID ≠ TS) :
    (searchReference lowerRune q S).count r =
      if (if leadingBang (TrimSpace q) = true
        then ¬ matchesQuery lowerRune (stripBang (TrimSpace q)) r
        else matchesQuery lowerRune (stripBang (TrimSpace q)) r)
      then S.count r else 0 := by
  have htail : (sentinelTail S).count r = 0 :=
    List.count_eq_zero.2 (fun h => hr (mem_sentinelTail S r h))
  unfold searchReference
  simp only [List.count_append, htail, Nat.add_zero, count_filter_ite]
  cases hb : leadingBang (TrimSpace q) <;>
    by_cases hm : matchesQuery lowerRune (stripBang (TrimSpace q)) r <;> simp [hr, hm]

/-- Claim C1. `searchService` equals the reference filter: for a query whose
trimmed form, with one leading `'!'` removed, is non-empty (so that the trimmed
form itself is non-empty), the result is the
list of non-sentinel records that match (no leading `'!'`) or do not match
(leading `'!'`), in their original order, followed by the last element of the
input when its UID is `"TS"`. -/
theorem searchService_eq_reference (lowerRune : Char → Char) (q : GoString)
    (S : List serverInfo) (hc : stripBang (TrimSpace q) ≠ []) :
    searchService lowerRune q S =
      S.filter (fun r => decide (r.UID ≠ TS) &&
          (if leadingBang (TrimSpace q)
           then !decide (matchesQuery lowerRune (stripBang (TrimSpace q)) r)
           else decide (matchesQuery lowerRune (stripBang (TrimSpace q)) r)))
        ++ sentinelTail S :=
  searchService_refines lowerRune q S hc

/-- Witness for C1: the query `"!db01"` against `[db01, db02, TS]` returns
`[db02, TS]`. -/
theorem searchService_eq_reference_witness :
    searchService asciiToLower "!db01".toList
        [db01, db02, timeStampEntry "12:00:00".toList] =
      [db02, timeStampEntry "12:00:00".toList] :=
  (searchService_eq_reference asciiToLower "!db01".toList
      [db01, db02, timeStampEntry "12:00:00".toList] (by decide)).trans (by decide)

/-- Counterexample to C2 as stated: the white-space query `" "` is non-empty and
does not start with `'!'`, yet both `searchService(" ", S)` and
`searchService("! ", S)` return `S`, so a non-sentinel record is in both. -/
theorem blank_query_breaks_duality :
    (" ".toList ≠ [] ∧ leadingBang " ".toList = false) ∧ db01.UID ≠ TS ∧
      db01 ∈ searchService asciiToLower " ".toList [db01] ∧
      db01 ∈ searchService asciiToLower ('!' :: " ".toList) [db01] := by
  decide

/-- Claim C2, amended. Include/exclude duality: for a query whose first character
is neither `'!'` nor white space, every non-sentinel record of `S` is in exactly
one of `searchService(q, S)` and `searchService("!" + q, S)`, with the same
multiplicity as in `S`; the two results share no non-sentinel record and hold
no non-sentinel record that is not in `S`. -/
theorem search_duality (lowerRune : Char → Char) (c : Char) (rest : GoString)
    (S : List serverInfo) (r : serverInfo)
    (hbang : c ≠ '!') (hsp : isSpace c = false) (hr : r.UID ≠ TS) :
    (r ∈ S ↔ (r ∈ searchService lowerRune (c :: rest) S ∨
        r ∈ searchService lowerRune ('!' :: c :: rest) S)) ∧
    ¬ (r ∈ searchService lowerRune (c :: rest) S ∧
        r ∈ searchService lowerRune ('!' :: c :: rest) S) ∧
    (searchService lowerRune (c :: rest) S).count r +
        (searchService lowerRune ('!' :: c :: rest) S).count r = S.count r := by
  have hexcl : isSpace '!' = false := by decide
  have ht1 : TrimSpace (c :: rest) = c :: rest.rdropWhile isSpace :=
    trimSpace_cons c rest hsp
  have ht2 : TrimSpace ('!' :: c :: rest) = '!' :: c :: rest.rdropWhile isSpace := by
    rw [trimSpace_cons '!' _ hexcl, rdropWhile_cons]
    simp [hsp]
  have h1 : stripBang (TrimSpace (c :: rest)) ≠ [] := by
    rw [ht1]; simp [stripBang, hbang]
  have h2 : stripBang (TrimSpace ('!' :: c :: rest)) ≠ [] := by
    rw [ht2]; simp [stripBang]
  rw [searchService_refines lowerRune _ S h1,
    searchService_refines lowerRune _ S h2,
    count_searchReference lowerRune _ S r hr, count_searchReference lowerRune _ S r hr,
    mem_searchReference lowerRune _ S r hr, mem_searchReference lowerRune _ S r hr,
    ht1, ht2]
  simp only [stripBang, leadingBang, hbang, if_false, if_true, decide_False, decide_True,
    Bool.false_eq_true]
  by_cases hm : matchesQuery lowerRune (c :: rest.rdropWhile isSpace) r <;>
    by_cases hS : r ∈ S <;> simp [hm, hS]

/-- Witness for C2 (amended), at the query `"db01"`. -/
theorem search_duality_witness :
    (db02 ∈ [db01, db02, timeStampEntry []] ↔
      (db02 ∈ searchService asciiToLower "db01".toList [db01, db02, timeStampEntry []] ∨
        db02 ∈ searchService asciiToLower "!db01".toList
          [db01, db02, timeStampEntry []])) ∧
    ¬ (db02 ∈ searchService asciiToLower "db01".toList [db01, db02, timeStampEntry []] ∧
        db02 ∈ searchService asciiToLower "!db01".toList
          [db01, db02, timeStampEntry []]) ∧
    (searchService asciiToLower "db01".toList [db01, db02, timeStampEntry []]).count db02 +
        (searchService asciiToLower "!db01".toList
          [db01, db02, timeStampEntry []]).count db02 =
      [db01, db02, timeStampEntry []].count db02 :=
  search_duality asciiToLower 'd' "b01".toList [db01, db02, timeStampEntry []] db02
    (by decide) (by decide) (by decide)

/-- Claim C3. A query that is empty, white space only, or a single `'!'`
surrounded by white space makes `searchService` return its input unchanged. -/
theorem searchService_blank (lowerRune : Char → Char) (q : GoString) (S : List serverInfo)
    (h : allSpace q ∨ ∃ a b, q = a ++ '!' :: b ∧ allSpace a ∧ allSpace b) :
    searchService lowerRune q S = S := by
  unfold searchService
  by_cases hlen : q.length = 0
  · simp [hlen]
  · simp only [hlen, if_false]
    rcases h with h | ⟨a, b, rfl, ha, hb⟩
    · rw [trimSpace_allSpace q h]
      simp [searchFiltered]
    · rw [trimSpace_bang a b ha hb]
      simp [searchFiltered]

/-- Witness for C3, at the query `" ! "`. -/
theorem searchService_blank_witness :
    searchService asciiToLower " ! ".toList [db01, db02, timeStampEntry []] =
      [db01, db02, timeStampEntry []] :=
  searchService_blank asciiToLower " ! ".toList [db01, db02, timeStampEntry []]
    (Or.inr ⟨[' '], [' '], rfl, by decide, by decide⟩)

/-- Counterexample to C5 as stated: the input contains a record with UID `"TS"`,
but not in last position; the loop skips it and nothing re-appends it, so the
output holds no sentinel at all. -/
theorem sentinel_not_last_is_dropped :
    stripBang (TrimSpace "db".toList) ≠ [] ∧
      timeStampEntry "12:00:00".toList ∈ [timeStampEntry "12:00:00".toList, db01] ∧
      (timeStampEntry "12:00:00".toList).UID = TS ∧
      searchService asciiToLower "db".toList [timeStampEntry "12:00:00".toList, db01] =
        [db01] ∧
      (searchService asciiToLower "db".toList
        [timeStampEntry "12:00:00".toList, db01]).getLast? ≠
          some (timeStampEntry "12:00:00".toList) := by
  decide

/-- Claim C5, amended. For a query with a non-empty stripped form and an input
whose last element has UID `"TS"`, the output of `searchService` has that last
element as its final element. -/
theorem searchService_keeps_trailing_sentinel (lowerRune : Char → Char) (q : GoString)
    (S : List serverInfo) (last : serverInfo)
    (hc : stripBang (TrimSpace q) ≠ [])
    (hlast : S.getLast? = some last) (hts : last.UID = TS) :
    (searchService lowerRune q S).getLast? = some last := by
  rw [searchService_refines lowerRune q S hc]
  unfold searchReference sentinelTail
  simp [hlast, hts]

/-- Witness for C5 (amended), at the query `"db01"`. -/
theorem searchService_keeps_trailing_sentinel_witness :
    (searchService asciiToLower "db01".toList
        [db01, db02, timeStampEntry "12:00:00".toList]).getLast? =
      some (timeStampEntry "12:00:00".toList) :=
  searchService_keeps_trailing_sentinel asciiToLower "db01".toList
    [db01, db02, timeStampEntry "12:00:00".toList] (timeStampEntry "12:00:00".toList)
    (by decide) (by decide) (by decide)

/-! ## Auxiliary facts about the merge -/

theorem mapGet_mapSet_self (m : ServerMap) (k : GoString) (v : serverInfo) :
    mapGet (mapSet m k v) k = some v := by
  induction m with
  | nil => simp [mapSet, mapGet]
  | cons kv rest ih =>
    obtain ⟨k', v'⟩ := kv
    by_cases h : k' = k
    · simp [mapSet, mapGet, h]
    · simp [mapSet, mapGet, h, ih]

theorem mapGet_mapSet_ne (m : ServerMap) (k k' : GoString) (v : serverInfo) (hk : k ≠ k') :
    mapGet (mapSet m k v) k' = mapGet m k' := by
  induction m with
  | nil => simp [mapSet, mapGet, hk]
  | cons kv rest ih =>
    obtain ⟨k0, v0⟩ := kv
    by_cases h : k0 = k
    · subst h; simp [mapSet, mapGet, hk]
    · by_cases h2 : k0 = k'
      · subst h2; simp [mapSet, mapGet, h]
      · simp [mapSet, mapGet, h, h2, ih]

theorem mapSet_of_mapGet (m : ServerMap) (k : GoString) (v : serverInfo)
    (h : mapGet m k = some v) : mapSet m k v = m := by
  induction m with
  | nil => simp [mapGet] at h
  | cons kv rest ih =>
    obtain ⟨k0, v0⟩ := kv
    by_cases hk : k0 = k
    · subst hk
      simp [mapGet] at h
      simp [mapSet, h]
    · simp [mapGet, hk] at h
      simp [mapSet, hk, ih h]

theorem mapSet_mapSet (m : ServerMap) (k : GoString) (v w : serverInfo) :
    mapSet (mapSet m k v) k w = mapSet m k w := by
  induction m with
  | nil => simp [mapSet]
  | cons kv rest ih =>
    obtain ⟨k0, v0⟩ := kv
    by_cases hk : k0 = k
    · simp [mapSet, hk]
    · simp [mapSet, hk, ih]

theorem mergeItem_eq (m : ServerMap) (vv : JSONObject) :
    mergeItem m vv =
      match alertOf vv with
      | none => m
      | some a => mapSet m a.uid (stepRecord (mapGet m a.uid) a) := by
  unfold mergeItem alertOf
  cases hl : index vv "labels".toList with
  | object labels =>
    simp only []
    cases hg : mapGet m (Sprintf (index labels "uniq_id".toList)) with
    | none =>
      simp only [stepRecord, newRecord]
      split <;> rfl
    | some cur =>
      simp only [stepRecord, updateRecord]
      generalize timeStampOf (Sprintf (index vv "startsAt".toList)) = ts
      generalize Sprintf (index labels "alertname".toList) = nm
      generalize Sprintf (index labels "uniq_id".toList) = uid at hg
      by_cases hf : nm ∈ cur.Service
      · simp only [hf, decide_True, Bool.not_true, Bool.false_eq_true, if_false, if_true, hg]
        by_cases ht : strLt ts cur.Time = true
        · simp [ht]
        · simp only [ht, if_false]
          exact (mapSet_of_mapGet m _ cur hg).symm
      · simp only [hf, decide_False, Bool.not_false, if_true, if_false, hg, mapGet_mapSet_self]
        by_cases ht : strLt ts cur.Time = true
        · simp [ht, mapSet_mapSet]
        · simp [ht]
  | null => rfl
  | bool b => rfl
  | number t => rfl
  | str s => rfl
  | array xs => rfl

theorem mapGet_mergeItem (m : ServerMap) (vv : JSONObject) (u : GoString) :
    mapGet (mergeItem m vv) u =
      match alertOf vv with
      | none => mapGet m u
      | some a => if a.uid = u then some (stepRecord (mapGet m u) a) else mapGet m u := by
  rw [mergeItem_eq]
  cases alertOf vv with
  | none => rfl
  | some a =>
    by_cases h : a.uid = u
    · subst h; simp [mapGet_mapSet_self]
    · simp [h, mapGet_mapSet_ne _ _ _ _ h]

theorem jsonToStruct_eq_foldl (P : List (List JSONObject)) :
    jsonToStruct P = P.flatten.foldl mergeItem [] := by
  unfold jsonToStruct
  generalize ([] : ServerMap) = m
  induction P generalizing m with
  | nil => rfl
  | cons v rest ih => simp [List.foldl_append, ih]

theorem mapGet_foldl_mergeItem (items : List JSONObject) (m : ServerMap) (u : GoString) :
    mapGet (items.foldl mergeItem m) u =
      ((items.filterMap alertOf).filter (fun a => decide (a.uid = u))).foldl
        (fun o a => some (stepRecord o a)) (mapGet m u) := by
  induction items generalizing m with
  | nil => rfl
  | cons vv rest ih =>
    rw [List.foldl_cons, ih, mapGet_mergeItem]
    cases ha : alertOf vv with
    | none => simp [List.filterMap_cons, ha]
    | some a =>
      by_cases h : a.uid = u
      · simp [List.filterMap_cons, ha, List.filter_cons, h]
      · simp [List.filterMap_cons, ha, List.filter_cons, h]

theorem mapGet_jsonToStruct (P : List (List JSONObject)) (u : GoString) :
    mapGet (jsonToStruct P) u = recordOf (alertsFor P u) := by
  rw [jsonToStruct_eq_foldl, mapGet_foldl_mergeItem]
  rfl

theorem strLt_irrefl (a : GoString) : strLt a a = false := by
  induction a with
  | nil => rfl
  | cons c cs ih => simp [strLt, ih]

theorem strLt_trans (a b c : GoString) (hab : strLt a b = true) (hbc : strLt b c = true) :
    strLt a c = true := by
  induction a generalizing b c with
  | nil =>
    cases b with
    | nil => simp [strLt] at hab
    | cons y ys =>
      cases c with
      | nil => simp [strLt] at hbc
      | cons z zs => simp [strLt]
  | cons x xs ih =>
    cases b with
    | nil => simp [strLt] at hab
    | cons y ys =>
      cases c with
      | nil => simp [strLt] at hbc
      | cons z zs =>
        simp only [strLt] at hab hbc ⊢
        rcases lt_trichotomy x y with hxy | hxy | hxy
        · rcases lt_trichotomy y z with hyz | hyz | hyz
          · simp [lt_trans hxy hyz]
          · subst hyz; simp [hxy]
          · simp [hyz, not_lt_of_lt hyz] at hbc
        · subst hxy
          rcases lt_trichotomy x z with hyz | hyz | hyz
          · simp [hyz]
          · subst hyz
            simp only [lt_self_iff_false, if_false] at hab hbc ⊢
            exact ih ys zs hab hbc
          · simp [hyz, not_lt_of_lt hyz] at hbc
        · simp [hxy, not_lt_of_lt hxy] at hab

theorem strLt_antisymm (a b : GoString) (hab : strLt a b = false) (hba : strLt b a = false) :
    a = b := by
  induction a generalizing b with
  | nil =>
    cases b with
    | nil => rfl
    | cons y ys => simp [strLt] at hab
  | cons x xs ih =>
    cases b with
    | nil => simp [strLt] at hba
    | cons y ys =>
      simp only [strLt] at hab hba
      rcases lt_trichotomy x y with hxy | hxy | hxy
      · simp [hxy] at hab
      · subst hxy
        simp only [lt_self_iff_false, if_false] at hab hba
        rw [ih ys hab hba]
      · simp [hxy] at hba

theorem foldl_stepRecord_some (as : List Alert) (r : serverInfo) :
    as.foldl (fun o a => some (stepRecord o a)) (some r) =
      some (as.foldl updateRecord r) := by
  induction as generalizing r with
  | nil => rfl
  | cons a rest ih =>
    rw [List.foldl_cons]
    exact ih (updateRecord r a)

theorem recordOf_cons (a : Alert) (rest : List Alert) :
    recordOf (a :: rest) = some (rest.foldl updateRecord (newRecord a)) := by
  unfold recordOf
  rw [List.foldl_cons]
  exact foldl_stepRecord_some rest (newRecord a)

theorem updateRecord_fields (r : serverInfo) (a : Alert) :
    (updateRecord r a).Hostname = r.Hostname ∧ (updateRecord r a).Account = r.Account ∧
    (updateRecord r a).Location = r.Location ∧ (updateRecord r a).Prom = r.Prom ∧
    (updateRecord r a).UID = r.UID ∧ (updateRecord r a).Silenced = r.Silenced := by
  unfold updateRecord
  by_cases h1 : a.alertName ∈ r.Service <;>
    by_cases h2 : strLt a.timeStamp r.Time = true <;> simp [h1, h2]

theorem foldl_updateRecord_fields (as : List Alert) (r : serverInfo) :
    (as.foldl updateRecord r).Hostname = r.Hostname ∧
    (as.foldl updateRecord r).Account = r.Account ∧
    (as.foldl updateRecord r).Location = r.Location ∧
    (as.foldl updateRecord r).Prom = r.Prom ∧
    (as.foldl updateRecord r).UID = r.UID ∧
    (as.foldl updateRecord r).Silenced = r.Silenced := by
  induction as generalizing r with
  | nil => simp
  | cons a rest ih =>
    rw [List.foldl_cons]
    obtain ⟨h1, h2, h3, h4, h5, h6⟩ := ih (updateRecord r a)
    obtain ⟨g1, g2, g3, g4, g5, g6⟩ := updateRecord_fields r a
    exact ⟨h1.trans g1, h2.trans g2, h3.trans g3, h4.trans g4, h5.trans g5, h6.trans g6⟩

theorem updateRecord_service (r : serverInfo) (a : Alert) :
    (updateRecord r a).Service =
      if a.alertName ∈ r.Service then r.Service else r.Service ++ [a.alertName] := by
  unfold updateRecord
  by_cases h1 : a.alertName ∈ r.Service <;>
    by_cases h2 : strLt a.timeStamp r.Time = true <;> simp [h1, h2]

theorem updateRecord_time (r : serverInfo) (a : Alert) :
    (updateRecord r a).Time =
      if strLt a.timeStamp r.Time = true then a.timeStamp else r.Time := by
  unfold updateRecord
  by_cases h1 : a.alertName ∈ r.Service <;>
    by_cases h2 : strLt a.timeStamp r.Time = true <;> simp [h1, h2]

theorem mem_firstOccurrences (l : List GoString) (n : GoString) :
    n ∈ firstOccurrences l ↔ n ∈ l := by
  induction l with
  | nil => simp [firstOccurrences]
  | cons m rest ih =>
    simp only [firstOccurrences, List.mem_cons, List.mem_filter, ih, decide_eq_true_eq]
    by_cases h : n = m <;> simp [h]

theorem nodup_firstOccurrences (l : List GoString) : (firstOccurrences l).Nodup := by
  induction l with
  | nil => simp [firstOccurrences]
  | cons m rest ih =>
    simp only [firstOccurrences, List.nodup_cons, List.mem_filter, decide_eq_true_eq]
    exact ⟨fun h => h.2 rfl, ih.filter _⟩

theorem foldl_updateRecord_service (as : List Alert) (r : serverInfo) :
    (as.foldl updateRecord r).Service =
      r.Service ++ (firstOccurrences (as.map Alert.alertName)).filter
        (fun n => decide (n ∉ r.Service)) := by
  induction as generalizing r with
  | nil => simp [firstOccurrences]
  | cons a rest ih =>
    rw [List.foldl_cons, ih, updateRecord_service]
    simp only [List.map_cons, firstOccurrences]
    by_cases h : a.alertName ∈ r.Service
    · simp only [h, if_true, List.filter_cons, not_true_eq_false, decide_False,
        Bool.false_eq_true, if_false, List.filter_filter]
      congr 1
      apply List.filter_congr
      intro n _
      by_cases hn : n ∈ r.Service
      · simp [hn]
      · have : n ≠ a.alertName := fun e => hn (e ▸ h)
        simp [hn, this]
    · simp only [h, if_false, List.filter_cons, not_false_eq_true, decide_True, if_true,
        List.filter_filter, List.append_assoc, List.singleton_append]
      congr 2
      apply List.filter_congr
      intro n _
      by_cases hn : n ∈ r.Service <;> by_cases hn2 : n = a.alertName <;> simp [hn, hn2]

theorem recordOf_service (a : Alert) (rest : List Alert) :
    (rest.foldl updateRecord (newRecord a)).Service =
      firstOccurrences ((a :: rest).map Alert.alertName) := by
  rw [foldl_updateRecord_service]
  have hs : (newRecord a).Service = [a.alertName] := by
    unfold newRecord; split <;> rfl
  rw [hs]
  simp [firstOccurrences]

theorem foldl_updateRecord_time_mem (as : List Alert) (r : serverInfo) :
    (as.foldl updateRecord r).Time ∈ r.Time :: as.map Alert.timeStamp := by
  induction as generalizing r with
  | nil => simp
  | cons a rest ih =>
    rw [List.foldl_cons]
    have h := ih (updateRecord r a)
    rw [updateRecord_time] at h
    simp only [List.mem_cons, List.map_cons] at h ⊢
    by_cases ht : strLt a.timeStamp r.Time = true
    · simp only [ht, if_true] at h
      rcases h with h | h
      · exact Or.inr (Or.inl h)
      · exact Or.inr (Or.inr h)
    · simp only [ht, if_false] at h
      rcases h with h | h
      · exact Or.inl h
      · exact Or.inr (Or.inr h)

theorem foldl_updateRecord_time_le (as : List Alert) (r : serverInfo) :
    strLt r.Time (as.foldl updateRecord r).Time = false ∧
      ∀ a ∈ as, strLt a.timeStamp (as.foldl updateRecord r).Time = false := by
  induction as generalizing r with
  | nil => simp [strLt_irrefl]
  | cons a rest ih =>
    rw [List.foldl_cons]
    obtain ⟨h1, h2⟩ := ih (updateRecord r a)
    rw [updateRecord_time] at h1
    have key : ∀ x : GoString, strLt x (updateRecord r a).Time = false →
        strLt x (List.foldl updateRecord (updateRecord r a) rest).Time = false := by
      intro x hx
      cases hc : strLt x (List.foldl updateRecord (updateRecord r a) rest).Time
      · rfl
      · cases hd : strLt (List.foldl updateRecord (updateRecord r a) rest).Time
            (updateRecord r a).Time
        · have e := strLt_antisymm _ _ hd (by rw [updateRecord_time]; exact h1)
          rw [e] at hc
          rw [hc] at hx
          exact hx
        · have := strLt_trans _ _ _ hc hd
          rw [this] at hx
          exact hx
    refine ⟨?_, ?_⟩
    · apply key
      rw [updateRecord_time]
      by_cases ht : strLt a.timeStamp r.Time = true
      · simp only [ht, if_true]
        cases hc : strLt r.Time a.timeStamp
        · rfl
        · have := strLt_trans _ _ _ hc ht
          rw [strLt_irrefl] at this
          exact absurd this (by simp)
      · simp only [ht, if_false]
        exact strLt_irrefl _
    · intro b hb
      rcases List.mem_cons.1 hb with hb | hb
      · subst hb
        apply key
        rw [updateRecord_time]
        by_cases ht : strLt b.timeStamp r.Time = true
        · simp only [ht, if_true]
          exact strLt_irrefl _
        · simp only [ht, if_false]
          simpa using ht
      · exact h2 b hb

theorem isString_iff (v : JSONValue) (s : GoString) :
    isString v s = true ↔ v = JSONValue.str s := by
  cases v <;> simp [isString]

theorem index_absent (m : JSONObject) (k : GoString) (h : ∀ kv ∈ m, kv.1 ≠ k) :
    index m k = JSONValue.null := by
  induction m with
  | nil => rfl
  | cons kv rest ih =>
    obtain ⟨k', v⟩ := kv
    have hk : k' ≠ k := h (k', v) (List.mem_cons_self _ _)
    simp only [index, hk, if_false]
    exact ih (fun x hx => h x (List.mem_cons_of_mem _ hx))

theorem alerts_append (P Q : List (List JSONObject)) :
    alerts (P ++ Q) = alerts P ++ alerts Q := by
  simp [alerts, List.flatten_append, List.filterMap_append]

theorem alertsFor_append (P Q : List (List JSONObject)) (u : GoString) :
    alertsFor (P ++ Q) u = alertsFor P u ++ alertsFor Q u := by
  simp [alertsFor, alerts_append, List.filter_append]

theorem alertsFor_singleton (vv : JSONObject) (a : Alert) (u : GoString)
    (ha : alertOf vv = some a) (hu : a.uid = u) : alertsFor [[vv]] u = [a] := by
  simp [alertsFor, alerts, ha, hu]

theorem mapGet_of_alertsFor (P : List (List JSONObject)) (u : GoString) (a : Alert)
    (rest : List Alert) (h : alertsFor P u = a :: rest) :
    mapGet (jsonToStruct P) u = some (rest.foldl updateRecord (newRecord a)) := by
  rw [mapGet_jsonToStruct, h, recordOf_cons]

theorem newRecord_time (a : Alert) : (newRecord a).Time = a.timeStamp := by
  unfold newRecord; split <;> rfl

theorem record_time_least (a : Alert) (rest : List Alert) :
    (rest.foldl updateRecord (newRecord a)).Time ∈ (a :: rest).map Alert.timeStamp ∧
      ∀ t ∈ (a :: rest).map Alert.timeStamp,
        strLt t (rest.foldl updateRecord (newRecord a)).Time = false := by
  have h1 := foldl_updateRecord_time_mem rest (newRecord a)
  obtain ⟨h2, h3⟩ := foldl_updateRecord_time_le rest (newRecord a)
  rw [newRecord_time] at h1 h2
  refine ⟨by simpa using h1, ?_⟩
  intro t ht
  simp only [List.map_cons, List.mem_cons, List.mem_map] at ht
  rcases ht with rfl | ⟨b, hb, rfl⟩
  · exact h2
  · exact h3 b hb

theorem record_absorbs (a0 : Alert) (rest : List Alert) (a : Alert) (ha : a ∈ a0 :: rest) :
    updateRecord (rest.foldl updateRecord (newRecord a0)) a =
      rest.foldl updateRecord (newRecord a0) := by
  have hs : a.alertName ∈ (rest.foldl updateRecord (newRecord a0)).Service := by
    rw [recordOf_service, mem_firstOccurrences]
    exact List.mem_map_of_mem _ ha
  have ht : strLt a.timeStamp (rest.foldl updateRecord (newRecord a0)).Time = false :=
    (record_time_least a0 rest).2 _ (List.mem_map_of_mem _ ha)
  generalize rest.foldl updateRecord (newRecord a0) = r at hs ht
  unfold updateRecord
  simp [hs, ht]

theorem mergeItem_absorbed (P : List (List JSONObject)) (vv : JSONObject)
    (hvv : vv ∈ P.flatten) : mergeItem (jsonToStruct P) vv = jsonToStruct P := by
  rw [mergeItem_eq]
  cases ha : alertOf vv with
  | none => rfl
  | some a =>
    have hmem : a ∈ alertsFor P a.uid := by
      simp only [alertsFor, alerts, List.mem_filter, List.mem_filterMap, decide_eq_true_eq,
        and_true]
      exact ⟨vv, hvv, ha⟩
    cases hal : alertsFor P a.uid with
    | nil => rw [hal] at hmem; simp at hmem
    | cons a0 rest =>
      rw [hal] at hmem
      have hg := mapGet_of_alertsFor P a.uid a0 rest hal
      simp only [hg, stepRecord, record_absorbs a0 rest a hmem]
      exact mapSet_of_mapGet _ _ _ hg

theorem foldl_mergeItem_absorbed (P : List (List JSONObject)) (items : List JSONObject)
    (h : ∀ vv ∈ items, vv ∈ P.flatten) :
    items.foldl mergeItem (jsonToStruct P) = jsonToStruct P := by
  induction items with
  | nil => rfl
  | cons vv rest ih =>
    rw [List.foldl_cons, mergeItem_absorbed P vv (h vv (List.mem_cons_self _ _))]
    exact ih (fun x hx => h x (List.mem_cons_of_mem _ hx))

theorem jsonToStruct_append (P Q : List (List JSONObject)) :
    jsonToStruct (P ++ Q) = Q.flatten.foldl mergeItem (jsonToStruct P) := by
  rw [jsonToStruct_eq_foldl, jsonToStruct_eq_foldl, List.flatten_append, List.foldl_append]

theorem searchService_of_stripped_nil (lowerRune : Char → Char) (q : GoString)
    (S : List serverInfo) (h : stripBang (TrimSpace q) = []) :
    searchService lowerRune q S = S := by
  unfold searchService
  by_cases hlen : q.length = 0
  · simp [hlen]
  · simp only [hlen, if_false]
    cases ht : TrimSpace q with
    | nil => simp [searchFiltered]
    | cons c rest =>
      rw [ht] at h
      by_cases hb : c = '!'
      · subst hb
        simp only [stripBang, if_true] at h
        simp [h, searchFiltered]
      · simp [stripBang, hb] at h

theorem sentinelTail_append_sentinel (l : List serverInfo) (s : serverInfo)
    (hs : s.UID = TS) : sentinelTail (l ++ [s]) = [s] := by
  simp [sentinelTail, hs]

theorem count_le_one_of_nodup (l : List GoString) (h : l.Nodup) (n : GoString) :
    l.count n ≤ 1 := by
  induction l with
  | nil => simp
  | cons m rest ih =>
    rw [List.nodup_cons] at h
    rw [List.count_cons]
    by_cases hmn : m = n
    · subst hmn
      rw [List.count_eq_zero.2 h.1]
      simp
    · have hb : (m == n) = false := by simpa using hmn
      rw [hb]
      simpa using ih h.2

/-! ## The merge and the published snapshot -/

/-- Claim C4. Sentinel stability over published snapshots: whatever the payloads
and the query, searching the snapshot `checkUpdate` publishes (the sorted
records followed by the sentinel with UID `"TS"`) gives a non-empty list whose
last element is that sentinel; and when the trimmed query with its leading
`'!'` removed is non-empty, no element before the last has UID `"TS"`. -/
theorem sentinel_stability (lowerRune : Char → Char) (timeString : GoString)
    (P : List (List JSONObject)) (q : GoString) :
    checkUpdate timeString P =
        sortServerList (jsonToStruct P) ++ [timeStampEntry timeString] ∧
    searchService lowerRune q (checkUpdate timeString P) ≠ [] ∧
    (searchService lowerRune q (checkUpdate timeString P)).getLast? =
        some (timeStampEntry timeString) ∧
    (stripBang (TrimSpace q) ≠ [] →
      ∀ r ∈ (searchService lowerRune q (checkUpdate timeString P)).dropLast, r.UID ≠ TS) := by
  have hsnap : checkUpdate timeString P =
      sortServerList (jsonToStruct P) ++ [timeStampEntry timeString] := rfl
  have hts : (timeStampEntry timeString).UID = TS := rfl
  refine ⟨hsnap, ?_⟩
  rw [hsnap]
  by_cases hc : stripBang (TrimSpace q) = []
  · rw [searchService_of_stripped_nil lowerRune q _ hc]
    exact ⟨by simp, by simp, fun h => absurd hc h⟩
  · rw [searchService_refines lowerRune q _ hc]
    unfold searchReference
    rw [sentinelTail_append_sentinel _ _ hts]
    refine ⟨by simp, by simp, fun _ r hr => ?_⟩
    rw [List.dropLast_concat] at hr
    have := (List.mem_filter.1 hr).2
    simp only [Bool.and_eq_true, decide_eq_true_eq] at this
    exact this.1

/-- Witness for C4: the query `"!disk"` on the snapshot of the merge scenario. -/
theorem sentinel_stability_witness :
    (searchService asciiToLower "!disk".toList
        (checkUpdate "12:00:00".toList scenarioPayload)).getLast? =
      some (timeStampEntry "12:00:00".toList) ∧
    ∀ r ∈ (searchService asciiToLower "!disk".toList
        (checkUpdate "12:00:00".toList scenarioPayload)).dropLast, r.UID ≠ TS :=
  ⟨(sentinel_stability asciiToLower "12:00:00".toList scenarioPayload "!disk".toList).2.2.1,
    (sentinel_stability asciiToLower "12:00:00".toList scenarioPayload "!disk".toList).2.2.2
      (by decide)⟩

/-- Claim C6. Earliest time is the minimum: for a UID `u` that occurs in the
payloads `P`, the `Time` of record `u` in `jsonToStruct(P)` is one of the
normalised timestamps of the alerts of `u` and none of them is lexically smaller;
it is the same for every payload list in which the alerts of `u` carry the same
timestamps in another order; and appending one more item for `u` never makes it
lexically larger. -/
theorem earliest_time_is_minimum (P : List (List JSONObject)) (u : GoString)
    (hu : alertsFor P u ≠ []) :
    ∃ r, mapGet (jsonToStruct P) u = some r ∧
      r.Time ∈ (alertsFor P u).map Alert.timeStamp ∧
      (∀ t ∈ (alertsFor P u).map Alert.timeStamp, strLt t r.Time = false) ∧
      (∀ P', ((alertsFor P' u).map Alert.timeStamp).Perm
          ((alertsFor P u).map Alert.timeStamp) →
        ∃ r', mapGet (jsonToStruct P') u = some r' ∧ r'.Time = r.Time) ∧
      (∀ vv a, alertOf vv = some a → a.uid = u →
        ∃ r', mapGet (jsonToStruct (P ++ [[vv]])) u = some r' ∧
          strLt r.Time r'.Time = false) := by
  cases hal : alertsFor P u with
  | nil => exact absurd hal hu
  | cons a0 rest =>
    obtain ⟨hmem, hle⟩ := record_time_least a0 rest
    refine ⟨_, mapGet_of_alertsFor P u a0 rest hal, hmem, hle, ?_, ?_⟩
    · intro P' hperm
      cases hal' : alertsFor P' u with
      | nil =>
        rw [hal'] at hperm
        have := hperm.length_eq
        simp at this
      | cons b0 rest' =>
        rw [hal'] at hperm
        obtain ⟨hmem', hle'⟩ := record_time_least b0 rest'
        refine ⟨_, mapGet_of_alertsFor P' u b0 rest' hal', ?_⟩
        exact strLt_antisymm _ _ (hle _ (hperm.subset hmem')) (hle' _ (hperm.symm.subset hmem))
    · intro vv a ha hau
      have happ : alertsFor (P ++ [[vv]]) u = a0 :: (rest ++ [a]) := by
        rw [alertsFor_append, hal, alertsFor_singleton vv a u ha hau]
        rfl
      obtain ⟨_, hle'⟩ := record_time_least a0 (rest ++ [a])
      refine ⟨_, mapGet_of_alertsFor _ u a0 _ happ, ?_⟩
      apply hle'
      have hsub : (a0 :: rest).map Alert.timeStamp ⊆ (a0 :: (rest ++ [a])).map Alert.timeStamp := by
        intro t ht
        simp only [List.map_cons, List.map_append, List.mem_cons, List.mem_append] at ht ⊢
        rcases ht with h | h
        · exact Or.inl h
        · exact Or.inr (Or.inl h)
      exact hsub hmem

/-- Witness for C6: in the merge scenario the earlier alert arrives second and
record `abc` carries its timestamp. -/
theorem earliest_time_is_minimum_witness :
    ∃ r, mapGet (jsonToStruct scenarioPayload) "abc".toList = some r ∧
      r.Time = "2024-01-01 09:00:00".toList ∧
      strLt "2024-01-01 10:00:00".toList r.Time = false := by
  obtain ⟨r, hr, _, hle, _, _⟩ :=
    earliest_time_is_minimum scenarioPayload "abc".toList
      (fun h => absurd (congrArg List.length h) (by decide))
  refine ⟨r, hr, ?_, hle _ (by decide)⟩
  have h : mapGet (jsonToStruct scenarioPayload) "abc".toList =
      some { Account := "<nil>".toList, Hostname := "<nil>".toList,
             Location := "<nil>".toList, Prom := "<nil>".toList,
             Time := "2024-01-01 09:00:00".toList,
             Service := ["disk-full".toList, "cpu-high".toList],
             UID := "abc".toList, Silenced := false } := by decide
  rw [h] at hr
  cases hr
  rfl

/-- Claim C7. Dedup invariant: every record of `jsonToStruct(P)` has a `Service`
list without duplicate entries, so no alert name occurs in it twice. -/
theorem service_nodup (P : List (List JSONObject)) (u : GoString) (r : serverInfo)
    (h : mapGet (jsonToStruct P) u = some r) :
    r.Service.Nodup ∧ ∀ n, r.Service.count n ≤ 1 := by
  have hnd : r.Service.Nodup := by
    rw [mapGet_jsonToStruct] at h
    cases hal : alertsFor P u with
    | nil => rw [hal] at h; simp [recordOf] at h
    | cons a0 rest =>
      rw [hal, recordOf_cons] at h
      cases h
      rw [recordOf_service]
      exact nodup_firstOccurrences _
  exact ⟨hnd, fun n => count_le_one_of_nodup r.Service hnd n⟩

/-- Witness for C7: the merge scenario received twice, every alert name once. -/
theorem service_nodup_witness :
    mapGet (jsonToStruct (scenarioPayload ++ scenarioPayload)) "abc".toList =
        some { Account := "<nil>".toList, Hostname := "<nil>".toList,
               Location := "<nil>".toList, Prom := "<nil>".toList,
               Time := "2024-01-01 09:00:00".toList,
               Service := ["disk-full".toList, "cpu-high".toList],
               UID := "abc".toList, Silenced := false } ∧
      ["disk-full".toList, "cpu-high".toList].Nodup ∧
      ∀ n, ["disk-full".toList, "cpu-high".toList].count n ≤ 1 :=
  ⟨by decide,
    service_nodup (scenarioPayload ++ scenarioPayload) "abc".toList
      { Account := "<nil>".toList, Hostname := "<nil>".toList,
        Location := "<nil>".toList, Prom := "<nil>".toList,
        Time := "2024-01-01 09:00:00".toList,
        Service := ["disk-full".toList, "cpu-high".toList],
        UID := "abc".toList, Silenced := false } (by decide)⟩

/-- Claim C8. The `Service` list of record `u` in `jsonToStruct(P)` is the sequence
of alert names of the items with `uniq_id` `u`, in arrival order, with every
repeat of an earlier name removed; there is a record for `u` exactly when `P`
has such an item. -/
theorem service_eq_firstOccurrences (P : List (List JSONObject)) (u : GoString) :
    (mapGet (jsonToStruct P) u).map serverInfo.Service =
      if (alertsFor P u).isEmpty then none
      else some (firstOccurrences ((alertsFor P u).map Alert.alertName)) := by
  rw [mapGet_jsonToStruct]
  cases hal : alertsFor P u with
  | nil => simp [recordOf]
  | cons a0 rest =>
    rw [recordOf_cons]
    simp [recordOf_service]

/-- Witness for C8: the merge scenario gives `Service = ["disk-full",
"cpu-high"]` and `Time = "2024-01-01 09:00:00"` for UID `abc`. -/
theorem service_eq_firstOccurrences_witness :
    (mapGet (jsonToStruct scenarioPayload) "abc".toList).map serverInfo.Service =
        some ["disk-full".toList, "cpu-high".toList] ∧
      (mapGet (jsonToStruct scenarioPayload) "abc".toList).map serverInfo.Time =
        some "2024-01-01 09:00:00".toList :=
  ⟨(service_eq_firstOccurrences scenarioPayload "abc".toList).trans (by decide), by decide⟩

/-- Claim C9. Merge idempotence: merging the payload list twice gives the same map
as merging it once, so the same UIDs and, for every UID, the same record. -/
theorem merge_idempotent (P : List (List JSONObject)) :
    jsonToStruct (P ++ P) = jsonToStruct P ∧
      ∀ u, mapGet (jsonToStruct (P ++ P)) u = mapGet (jsonToStruct P) u := by
  have h : jsonToStruct (P ++ P) = jsonToStruct P := by
    rw [jsonToStruct_append]
    exact foldl_mergeItem_absorbed P P.flatten (fun _ hvv => hvv)
  exact ⟨h, fun u => by rw [h]⟩

/-- Claim C10. Label mapping by group: the descriptive fields of record `u` come
from the first item with `uniq_id` `u`: from the labels `hostname`,
`policy_description`, `disksafe_description` when its `group` label is the
string `"guardian"`, from `Hostname`, `Account`, `Location` otherwise, and
`Prom` from `prom_serv` in both cases; an absent label is rendered `"<nil>"`;
and items merged later never change these four fields. -/
theorem label_mapping_by_group (P : List (List JSONObject)) (u : GoString) (a : Alert)
    (rest : List Alert) (h : alertsFor P u = a :: rest) :
    ∃ r, mapGet (jsonToStruct P) u = some r ∧
      (index a.labels "group".toList = JSONValue.str "guardian".toList →
        r.Hostname = Sprintf (index a.labels "hostname".toList) ∧
        r.Account = Sprintf (index a.labels "policy_description".toList) ∧
        r.Location = Sprintf (index a.labels "disksafe_description".toList)) ∧
      (index a.labels "group".toList ≠ JSONValue.str "guardian".toList →
        r.Hostname = Sprintf (index a.labels "Hostname".toList) ∧
        r.Account = Sprintf (index a.labels "Account".toList) ∧
        r.Location = Sprintf (index a.labels "Location".toList)) ∧
      r.Prom = Sprintf (index a.labels "prom_serv".toList) ∧
      (∀ k, (∀ kv ∈ a.labels, kv.1 ≠ k) → Sprintf (index a.labels k) = "<nil>".toList) ∧
      (∀ Q, ∃ r', mapGet (jsonToStruct (P ++ Q)) u = some r' ∧
        r'.Hostname = r.Hostname ∧ r'.Account = r.Account ∧
        r'.Location = r.Location ∧ r'.Prom = r.Prom) := by
  obtain ⟨f1, f2, f3, f4, _, _⟩ := foldl_updateRecord_fields rest (newRecord a)
  refine ⟨_, mapGet_of_alertsFor P u a rest h, ?_, ?_, ?_, ?_, ?_⟩
  · intro hg
    have hg' := (isString_iff _ _).2 hg
    rw [f1, f2, f3]
    unfold newRecord
    rw [if_pos hg']
    exact ⟨rfl, rfl, rfl⟩
  · intro hg
    have hg' : isString (index a.labels "group".toList) "guardian".toList = false := by
      cases hc : isString (index a.labels "group".toList) "guardian".toList
      · rfl
      · exact absurd ((isString_iff _ _).1 hc) hg
    rw [f1, f2, f3]
    unfold newRecord
    rw [hg']
    exact ⟨rfl, rfl, rfl⟩
  · rw [f4]
    unfold newRecord
    split <;> rfl
  · intro k hk
    rw [index_absent a.labels k hk]
    rfl
  · intro Q
    have happ : alertsFor (P ++ Q) u = a :: (rest ++ alertsFor Q u) := by
      rw [alertsFor_append, h]; rfl
    obtain ⟨g1, g2, g3, g4, _, _⟩ :=
      foldl_updateRecord_fields (rest ++ alertsFor Q u) (newRecord a)
    exact ⟨_, mapGet_of_alertsFor _ u a _ happ, g1.trans f1.symm, g2.trans f2.symm,
      g3.trans f3.symm, g4.trans f4.symm⟩

/-- Witness for C10: a `guardian` item without `policy_description`, followed
by an item of the same UID with other labels. -/
theorem label_mapping_by_group_witness :
    ∃ r, mapGet (jsonToStruct guardianPayload) "g1".toList = some r ∧
      r.Hostname = "backup01".toList ∧ r.Account = "<nil>".toList ∧
      r.Location = "ds7".toList ∧ r.Prom = "n01".toList := by
  cases hal : alertsFor guardianPayload "g1".toList with
  | nil => exact absurd (congrArg List.length hal) (by decide)
  | cons a rest =>
    have hl : a.labels = stringFields [("uniq_id", "g1"), ("group", "guardian"),
        ("hostname", "backup01"), ("disksafe_description", "ds7"), ("prom_serv", "n01"),
        ("alertname", "backup-failed")] := by
      have : (alertsFor guardianPayload "g1".toList).head?.map Alert.labels =
          some (stringFields [("uniq_id", "g1"), ("group", "guardian"),
            ("hostname", "backup01"), ("disksafe_description", "ds7"), ("prom_serv", "n01"),
            ("alertname", "backup-failed")]) := rfl
      rw [hal] at this
      simpa using this
    obtain ⟨r, hr, hg, _, hp, _, _⟩ :=
      label_mapping_by_group guardianPayload "g1".toList a rest hal
    have hgrp : index a.labels "group".toList = JSONValue.str "guardian".toList := by
      rw [hl]; rfl
    obtain ⟨h1, h2, h3⟩ := hg hgrp
    refine ⟨r, hr, ?_, ?_, ?_, ?_⟩
    · rw [h1, hl]; rfl
    · rw [h2, hl]; rfl
    · rw [h3, hl]; rfl
    · rw [hp, hl]; rfl

/-! ## Timestamp normalisation -/

theorem split_of_not_mem (s : GoString) (sep : Char) (h : sep ∉ s) : Split s sep = [s] := by
  induction s with
  | nil => rfl
  | cons c cs ih =>
    have hc : c ≠ sep := fun e => h (e ▸ List.mem_cons_self _ _)
    have hcs : sep ∉ cs := fun e => h (List.mem_cons_of_mem _ e)
    simp [Split, hc, ih hcs]

theorem split_append_sep (d rest : GoString) (sep : Char) (h : sep ∉ d) :
    Split (d ++ sep :: rest) sep = d :: Split rest sep := by
  induction d with
  | nil => simp [Split]
  | cons c cs ih =>
    have hc : c ≠ sep := fun e => h (e ▸ List.mem_cons_self _ _)
    have hcs : sep ∉ cs := fun e => h (List.mem_cons_of_mem _ e)
    simp [Split, hc, ih hcs]

theorem timeStampOf_of_not_mem (s : GoString) (h : 'T' ∉ s) : timeStampOf s = s := by
  unfold timeStampOf
  rw [split_of_not_mem s 'T' h]

theorem timeStampOf_date_time (d t : GoString) (hd : 'T' ∉ d) (ht : 'T' ∉ t)
    (htd : '.' ∉ t) : timeStampOf (d ++ 'T' :: t) = d ++ ' ' :: t := by
  unfold timeStampOf
  rw [split_append_sep d t 'T' hd, split_of_not_mem t 'T' ht]
  simp only []
  rw [split_of_not_mem t '.' htd]
  rfl

theorem timeStampOf_date_time_fraction (d t f : GoString) (hd : 'T' ∉ d) (ht : 'T' ∉ t)
    (htd : '.' ∉ t) (hf : 'T' ∉ f) :
    timeStampOf (d ++ 'T' :: (t ++ '.' :: f)) = d ++ ' ' :: t := by
  have hno : 'T' ∉ t ++ '.' :: f := by
    simp only [List.mem_append, List.mem_cons, not_or]
    exact ⟨ht, by decide, hf⟩
  unfold timeStampOf
  rw [split_append_sep d _ 'T' hd, split_of_not_mem _ 'T' hno]
  simp only []
  rw [split_append_sep t f '.' htd]
  rfl

theorem mergeItem_time (m : ServerMap) (vv labels : JSONObject) (s : GoString)
    (hl : index vv "labels".toList = JSONValue.object labels)
    (hs : index vv "startsAt".toList = JSONValue.str s) :
    ∃ r, mapGet (mergeItem m vv) (Sprintf (index labels "uniq_id".toList)) = some r ∧
      r.Time =
        match mapGet m (Sprintf (index labels "uniq_id".toList)) with
        | none => timeStampOf s
        | some cur => if strLt (timeStampOf s) cur.Time = true then timeStampOf s else cur.Time := by
  have ha : alertOf vv = some
      { uid := Sprintf (index labels "uniq_id".toList)
        timeStamp := timeStampOf s
        alertName := Sprintf (index labels "alertname".toList)
        labels := labels } := by
    unfold alertOf
    rw [hl]
    simp only [hs]
    rfl
  rw [mapGet_mergeItem, ha]
  simp only [if_true]
  refine ⟨_, rfl, ?_⟩
  cases mapGet m (Sprintf (index labels "uniq_id".toList)) with
  | none => exact newRecord_time _
  | some cur => exact updateRecord_time cur _

theorem jsonToStruct_single (vv : JSONObject) : jsonToStruct [[vv]] = mergeItem [] vv := rfl

theorem jsonToStruct_single_time (vv labels : JSONObject) (s : GoString)
    (hl : index vv "labels".toList = JSONValue.object labels)
    (hs : index vv "startsAt".toList = JSONValue.str s) :
    ∃ r, mapGet (jsonToStruct [[vv]]) (Sprintf (index labels "uniq_id".toList)) = some r ∧
      r.Time = timeStampOf s := by
  rw [jsonToStruct_single]
  obtain ⟨r, hr, ht⟩ := mergeItem_time [] vv labels s hl hs
  exact ⟨r, hr, ht⟩

/-- Claim C11. Timestamp normalisation discards sub-second precision: for an
alert item with a labels object whose `startsAt` is the text `d + "T" + t` or
`d + "T" + t + "." + f`, where `d` has no `'T'`, `t` has neither `'T'` nor `'.'`
and `f` has no `'T'`, the `Time` `jsonToStruct` stores for the item is
`d + " " + t`, and merging the item into a map that already has a record for its
UID compares `d + " " + t` with the stored `Time` and keeps the smaller; for a
`startsAt` text without `'T'` the same holds with the text itself. -/
theorem timestamp_normalization (d t f : GoString) (hd : 'T' ∉ d) (ht : 'T' ∉ t)
    (htd : '.' ∉ t) (hf : 'T' ∉ f) :
    (∀ (vv labels : JSONObject) (s : GoString),
      index vv "labels".toList = JSONValue.object labels →
      index vv "startsAt".toList = JSONValue.str s →
      (s = d ++ 'T' :: t ∨ s = d ++ 'T' :: (t ++ '.' :: f)) →
      (∃ r, mapGet (jsonToStruct [[vv]]) (Sprintf (index labels "uniq_id".toList)) = some r ∧
        r.Time = d ++ ' ' :: t) ∧
      ∀ m : ServerMap,
        ∃ r, mapGet (mergeItem m vv) (Sprintf (index labels "uniq_id".toList)) = some r ∧
          r.Time =
            match mapGet m (Sprintf (index labels "uniq_id".toList)) with
            | none => d ++ ' ' :: t
            | some cur => if strLt (d ++ ' ' :: t) cur.Time = true then d ++ ' ' :: t
              else cur.Time) ∧
    (∀ (vv labels : JSONObject) (s : GoString),
      index vv "labels".toList = JSONValue.object labels →
      index vv "startsAt".toList = JSONValue.str s → 'T' ∉ s →
      (∃ r, mapGet (jsonToStruct [[vv]]) (Sprintf (index labels "uniq_id".toList)) = some r ∧
        r.Time = s) ∧
      ∀ m : ServerMap,
        ∃ r, mapGet (mergeItem m vv) (Sprintf (index labels "uniq_id".toList)) = some r ∧
          r.Time =
            match mapGet m (Sprintf (index labels "uniq_id".toList)) with
            | none => s
            | some cur => if strLt s cur.Time = true then s else cur.Time) ∧
    timeStampOf (d ++ 'T' :: t) = d ++ ' ' :: t ∧
    timeStampOf (d ++ 'T' :: (t ++ '.' :: f)) = d ++ ' ' :: t := by
  have h1 := timeStampOf_date_time d t hd ht htd
  have h2 := timeStampOf_date_time_fraction d t f hd ht htd hf
  refine ⟨?_, ?_, h1, h2⟩
  · intro vv labels s hl hs hform
    have hn : timeStampOf s = d ++ ' ' :: t := by
      rcases hform with e | e
      · rw [e]; exact h1
      · rw [e]; exact h2
    have hsingle := jsonToStruct_single_time vv labels s hl hs
    have hmerge := fun m => mergeItem_time m vv labels s hl hs
    rw [hn] at hsingle
    simp only [hn] at hmerge
    exact ⟨hsingle, hmerge⟩
  · intro vv labels s hl hs hT
    have hn : timeStampOf s = s := timeStampOf_of_not_mem s hT
    have hsingle := jsonToStruct_single_time vv labels s hl hs
    have hmerge := fun m => mergeItem_time m vv labels s hl hs
    rw [hn] at hsingle
    simp only [hn] at hmerge
    exact ⟨hsingle, hmerge⟩

/-- Witness for C11: for the items with `startsAt` `"2024-01-01T10:00:00.123Z"`
and `"2024-01-01T10:00:00"`, `jsonToStruct` stores `"2024-01-01 10:00:00"`. -/
theorem timestamp_normalization_witness :
    (∃ r, mapGet (jsonToStruct [[fractionItem]]) "abc".toList = some r ∧
      r.Time = "2024-01-01 10:00:00".toList) ∧
    (∃ r, mapGet (jsonToStruct [[wholeSecondItem]]) "abc".toList = some r ∧
      r.Time = "2024-01-01 10:00:00".toList) :=
  ⟨((timestamp_normalization "2024-01-01".toList "10:00:00".toList "123Z".toList
      (by decide) (by decide) (by decide) (by decide)).1 fractionItem
      (stringFields [("uniq_id", "abc"), ("alertname", "disk-full")])
      "2024-01-01T10:00:00.123Z".toList rfl rfl (Or.inr rfl)).1,
    ((timestamp_normalization "2024-01-01".toList "10:00:00".toList "123Z".toList
      (by decide) (by decide) (by decide) (by decide)).1 wholeSecondItem
      (stringFields [("uniq_id", "abc"), ("alertname", "disk-full")])
      "2024-01-01T10:00:00".toList rfl rfl (Or.inl rfl)).1⟩

/-! ## The snapshot store -/

theorem lastSet_append_get (pre : List StoreCall) :
    lastSet (pre ++ [StoreCall.get]) = lastSet pre := by
  simp [lastSet, List.filterMap_append, setArgument]

theorem lastSet_append_set (pre : List StoreCall) (servers : List serverInfo) (now : Nat) :
    lastSet (pre ++ [StoreCall.set servers now]) = servers := by
  simp [lastSet, List.filterMap_append, setArgument]

theorem runCalls_gets (s : AlertStore) (pre calls : List StoreCall)
    (hs : s.servers = lastSet pre) :
    (runCalls s calls).2 = expectedGets pre calls := by
  induction calls generalizing s pre with
  | nil => rfl
  | cons c rest ih =>
    cases c with
    | set servers now =>
      simp only [runCalls, expectedGets]
      exact ih _ _ (by rw [lastSet_append_set]; rfl)
    | get =>
      simp only [runCalls, expectedGets, AlertStore.Get]
      rw [ih s (pre ++ [StoreCall.get]) (by rw [lastSet_append_get]; exact hs), hs]

/-- Claim C18. Snapshot store, sequential contract: in every sequence of `Set`
and `Get` calls on a store made by `NewAlertStore`, each `Get` returns the
argument of the most recent preceding `Set` (the empty list when there is
none); a `Get` leaves the store as it is, so taking a `Get` out of the sequence
changes neither the store at the end nor what the other `Get` calls return. -/
theorem store_sequential_contract (calls : List StoreCall) :
    (runCalls NewAlertStore calls).2 = expectedGets [] calls ∧
    (∀ s : AlertStore, s.Get.2 = s ∧ s.Get.1 = s.servers) ∧
    (∀ (s : AlertStore) (servers : List serverInfo) (now : Nat),
      (s.Set servers now).Get.1 = servers) ∧
    (∀ (s : AlertStore) (rest : List StoreCall),
      (runCalls s (StoreCall.get :: rest)).1 = (runCalls s rest).1 ∧
      (runCalls s (StoreCall.get :: rest)).2 = s.servers :: (runCalls s rest).2) := by
  refine ⟨runCalls_gets NewAlertStore [] calls rfl, fun s => ⟨rfl, rfl⟩,
    fun s servers now => rfl, fun s rest => ⟨rfl, rfl⟩⟩

/-! ## Auxiliary facts about the silence ledger -/

theorem trimSpace_sublist (s : GoString) : (TrimSpace s).Sublist s := by
  rw [trimSpace_eq]
  exact (List.rdropWhile_prefix isSpace _).sublist.trans (List.dropWhile_sublist isSpace)

theorem trimSpace_idem (s : GoString) : TrimSpace (TrimSpace s) = TrimSpace s := by
  have hD : (s.dropWhile isSpace).dropWhile isSpace = s.dropWhile isSpace :=
    List.dropWhile_idempotent isSpace s
  rw [trimSpace_eq s]
  cases hd : s.dropWhile isSpace with
  | nil => rfl
  | cons x rest =>
    rw [hd] at hD
    have hx : isSpace x = false := by
      cases hp : isSpace x
      · rfl
      · rw [List.dropWhile_cons, if_pos hp] at hD
        have hlen := congrArg List.length hD
        have hle := (List.dropWhile_sublist isSpace (l := rest)).length_le
        simp at hlen
        omega
    have hT : (x :: rest).rdropWhile isSpace = x :: rest.rdropWhile isSpace := by
      rw [rdropWhile_cons]; simp [hx]
    rw [hT, trimSpace_eq, List.dropWhile_cons, hx]
    simp only [Bool.false_eq_true, if_false]
    rw [← hT]
    exact List.rdropWhile_idempotent isSpace _

theorem rdropWhile_of_trimmed (s : GoString) (h : TrimSpace s = s) :
    s.rdropWhile isSpace = s := by
  have h1 : (TrimSpace s).rdropWhile isSpace = TrimSpace s := by
    rw [trimSpace_eq]; exact List.rdropWhile_idempotent isSpace _
  rw [h] at h1
  exact h1

theorem dropCR_of_trimmed (s : GoString) (h : TrimSpace s = s) : dropCR s = s := by
  unfold dropCR
  by_cases hl : s.getLast? = some '\r'
  · exfalso
    obtain ⟨ys, hys⟩ := List.getLast?_eq_some_iff.1 hl
    have hr := rdropWhile_of_trimmed s h
    rw [hys, List.rdropWhile_concat] at hr
    have hcr : isSpace '\r' = true := by decide
    rw [if_pos hcr] at hr
    have hlen := congrArg List.length hr
    have hle := (List.rdropWhile_prefix isSpace ys).length_le
    simp at hlen
    omega
  · rw [if_neg hl]

theorem dropCR_sublist (s : GoString) : (dropCR s).Sublist s := by
  unfold dropCR
  split
  · exact List.dropLast_sublist s
  · exact List.Sublist.refl s

theorem byteLen_le_of_sublist (s t : GoString) (h : s.Sublist t) : byteLen s ≤ byteLen t := by
  induction h with
  | slnil => exact Nat.le_refl _
  | cons a _ ih =>
    simp only [byteLen, List.map_cons, List.sum_cons] at ih ⊢
    omega
  | cons₂ a _ ih =>
    simp only [byteLen, List.map_cons, List.sum_cons] at ih ⊢
    omega

theorem rawLines_no_newline (text cur line : GoString) (hcur : '\n' ∉ cur)
    (hline : line ∈ rawLines cur text) : '\n' ∉ line := by
  induction text generalizing cur with
  | nil =>
    simp only [rawLines] at hline
    by_cases hc : cur = []
    · simp [hc] at hline
    · simp only [hc, if_false, List.mem_singleton] at hline
      rw [hline]; exact hcur
  | cons c cs ih =>
    simp only [rawLines] at hline
    by_cases hc : c = '\n'
    · simp only [hc, if_true, List.mem_cons] at hline
      rcases hline with h | h
      · rw [h]; exact hcur
      · exact ih [] (by simp) h
    · simp only [hc, if_false] at hline
      refine ih (cur ++ [c]) ?_ hline
      simp only [List.mem_append, List.mem_singleton, not_or]
      exact ⟨hcur, fun e => hc e.symm⟩

theorem rawLines_append_line (cur v rest : GoString) (hv : '\n' ∉ v) :
    rawLines cur (v ++ '\n' :: rest) = (cur ++ v) :: rawLines [] rest := by
  induction v generalizing cur with
  | nil => simp [rawLines]
  | cons c cs ih =>
    have hc : c ≠ '\n' := fun e => hv (e ▸ List.mem_cons_self _ _)
    have hcs : '\n' ∉ cs := fun e => hv (List.mem_cons_of_mem _ e)
    rw [List.cons_append, rawLines, if_neg hc, ih (cur ++ [c]) hcs]
    simp

theorem rawLines_split (a b cur : GoString) :
    rawLines cur (a ++ '\n' :: b) = rawLines cur (a ++ ['\n']) ++ rawLines [] b := by
  induction a generalizing cur with
  | nil => simp [rawLines]
  | cons c cs ih =>
    by_cases hc : c = '\n'
    · rw [List.cons_append, List.cons_append, rawLines, rawLines, if_pos hc, if_pos hc, ih []]
      rfl
    · rw [List.cons_append, List.cons_append, rawLines, rawLines, if_neg hc, if_neg hc]
      exact ih (cur ++ [c])

theorem rawLines_append_host (text h : GoString) (ht : Terminated text) (hh : '\n' ∉ h) :
    rawLines [] (text ++ (h ++ ['\n'])) = rawLines [] text ++ [h] := by
  have hsingle : rawLines [] (h ++ ['\n']) = [h] := by
    rw [rawLines_append_line [] h [] hh]
    simp [rawLines]
  rcases ht with ht | ht
  · subst ht
    simpa using hsingle
  · obtain ⟨ys, hys⟩ := List.getLast?_eq_some_iff.1 ht
    subst hys
    rw [List.append_assoc, List.singleton_append, rawLines_split, hsingle]

theorem rawLines_writeHosts (vs : List GoString) (h : ∀ v ∈ vs, '\n' ∉ v) :
    rawLines [] (writeHosts vs) = vs := by
  induction vs with
  | nil => rfl
  | cons v rest ih =>
    simp only [writeHosts]
    rw [rawLines_append_line [] v _ (h v (List.mem_cons_self _ _)),
      ih (fun w hw => h w (List.mem_cons_of_mem _ hw))]
    simp

theorem scanHosts_of_short (lines acc : List GoString)
    (h : ∀ line ∈ lines, byteLen line < maxScanTokenSize) :
    scanHosts lines acc = Except.ok (acc ++ hostsOf lines) := by
  induction lines generalizing acc with
  | nil => simp [scanHosts, hostsOf]
  | cons line rest ih =>
    have h1 : ¬ maxScanTokenSize ≤ byteLen line :=
      Nat.not_le.2 (h line (List.mem_cons_self _ _))
    have h2 := fun acc' => ih acc' (fun l hl => h l (List.mem_cons_of_mem _ hl))
    simp only [scanHosts, h1, if_false]
    by_cases hne : TrimSpace (dropCR line) = []
    · simp [hne, h2, hostsOf]
    · simp [hne, h2, hostsOf]

theorem scanHosts_ok_inv (lines acc hs : List GoString)
    (h : scanHosts lines acc = Except.ok hs) :
    (∀ line ∈ lines, byteLen line < maxScanTokenSize) ∧ hs = acc ++ hostsOf lines := by
  have hshort : ∀ line ∈ lines, byteLen line < maxScanTokenSize := by
    induction lines generalizing acc with
    | nil => simp
    | cons line rest ih =>
      simp only [scanHosts] at h
      by_cases h1 : maxScanTokenSize ≤ byteLen line
      · simp [h1] at h
      · simp only [h1, if_false] at h
        intro l hl
        rcases List.mem_cons.1 hl with e | e
        · rw [e]; exact Nat.not_le.1 h1
        · by_cases hne : TrimSpace (dropCR line) = []
          · simp only [hne, ne_eq, not_true_eq_false, if_false] at h
            exact ih acc h l e
          · simp only [hne, ne_eq, not_false_eq_true, if_true] at h
            exact ih _ h l e
  refine ⟨hshort, ?_⟩
  rw [scanHosts_of_short lines acc hshort] at h
  cases h
  rfl

theorem plainHost_of_mem_hostsOf (lines : List GoString) (v : GoString)
    (hlines : ∀ line ∈ lines, '\n' ∉ line ∧ byteLen line < maxScanTokenSize)
    (hv : v ∈ hostsOf lines) : PlainHost v := by
  simp only [hostsOf, List.mem_filter, List.mem_map, decide_eq_true_eq] at hv
  obtain ⟨⟨line, hl, rfl⟩, hne⟩ := hv
  have hsub : (TrimSpace (dropCR line)).Sublist line :=
    (trimSpace_sublist _).trans (dropCR_sublist line)
  refine ⟨trimSpace_idem _, hne, fun hmem => (hlines line hl).1 (hsub.subset hmem), ?_⟩
  exact Nat.lt_of_le_of_lt (byteLen_le_of_sublist _ _ hsub) (hlines line hl).2

theorem hostsOf_of_plain (vs : List GoString) (h : ∀ v ∈ vs, PlainHost v) :
    hostsOf vs = vs := by
  induction vs with
  | nil => rfl
  | cons v rest ih =>
    obtain ⟨ht, hne, _, _⟩ := h v (List.mem_cons_self _ _)
    have hrest := ih (fun w hw => h w (List.mem_cons_of_mem _ hw))
    unfold hostsOf at hrest ⊢
    simp only [List.map_cons, List.filter_cons, dropCR_of_trimmed v ht, ht, hne, ne_eq,
      not_false_eq_true, decide_True, if_true, hrest]

theorem getSilencedHosts_plain (L : Ledger) (hosts : List GoString)
    (h : getSilencedHosts L = Except.ok hosts) : ∀ v ∈ hosts, PlainHost v := by
  unfold getSilencedHosts at h
  cases hf : L.file with
  | none =>
    rw [hf] at h
    cases h
    simp
  | some text =>
    rw [hf] at h
    by_cases hr : L.canRead = true
    · simp only [hr, if_true] at h
      obtain ⟨hshort, hs⟩ := scanHosts_ok_inv _ _ _ h
      rw [hs, List.nil_append]
      intro v hv
      exact plainHost_of_mem_hostsOf _ v
        (fun line hl => ⟨rawLines_no_newline text [] line (by simp) hl, hshort line hl⟩) hv
    · simp [hr] at h

theorem getSilencedHosts_written (L : Ledger) (vs : List GoString) (hr : L.canRead = true)
    (h : ∀ v ∈ vs, PlainHost v) :
    getSilencedHosts { L with file := some (writeHosts vs) } = Except.ok vs := by
  unfold getSilencedHosts
  simp only [hr, if_true]
  rw [rawLines_writeHosts vs (fun v hv => (h v hv).2.2.1),
    scanHosts_of_short vs [] (fun v hv => (h v hv).2.2.2), hostsOf_of_plain vs h]
  rfl

theorem removeSilenced_ledger (L : Ledger) (S : List serverInfo) (h : GoString)
    (hosts : List GoString) (hr : L.canRead = true) (hw : L.canWrite = true)
    (hh : getSilencedHosts L = Except.ok hosts) :
    getSilencedHosts (removeSilenced L S h).2 =
      Except.ok (hosts.filter (fun v => decide (v ≠ h))) := by
  unfold removeSilenced
  rw [hh]
  simp only [hw, if_true]
  exact getSilencedHosts_written L _ hr
    (fun v hv => getSilencedHosts_plain L hosts hh v (List.mem_filter.1 hv).1)

theorem getSilencedHosts_after_add (L L1 : Ledger) (h : GoString) (hosts : List GoString)
    (hr : L.canRead = true) (hh : getSilencedHosts L = Except.ok hosts)
    (hterm : Terminated (L.file.getD [])) (hp : PlainHost h)
    (hadd : addSilencedAlert L h = Except.ok L1) :
    getSilencedHosts L1 = Except.ok (hosts ++ [h]) := by
  unfold addSilencedAlert at hadd
  by_cases hw : L.canWrite = true
  · simp only [hw, if_true] at hadd
    cases hadd
    have hlines : (∀ line ∈ rawLines [] (L.file.getD []), byteLen line < maxScanTokenSize) ∧
        hosts = hostsOf (rawLines [] (L.file.getD [])) := by
      unfold getSilencedHosts at hh
      cases hf : L.file with
      | none =>
        rw [hf] at hh
        cases hh
        simp [rawLines, hostsOf]
      | some text =>
        rw [hf] at hh
        simp only [hr, if_true] at hh
        obtain ⟨hshort, hs⟩ := scanHosts_ok_inv _ _ _ hh
        exact ⟨hshort, by simpa using hs⟩
    have hhosts := hlines.2
    unfold getSilencedHosts
    simp only [hr, if_true]
    rw [rawLines_append_host _ h hterm hp.2.2.1]
    rw [scanHosts_of_short _ [] (by
      intro line hl
      rcases List.mem_append.1 hl with e | e
      · exact hlines.1 line e
      · rw [List.mem_singleton.1 e]; exact hp.2.2.2)]
    have happ : hostsOf (rawLines [] (L.file.getD []) ++ [h]) =
        hostsOf (rawLines [] (L.file.getD [])) ++ hostsOf [h] := by
      simp [hostsOf, List.filter_append]
    rw [happ, hostsOf_of_plain [h] (by simpa using hp), ← hhosts]
    rfl
  · simp [hw] at hadd

theorem setSilencedAlerts_of_hosts (L : Ledger) (H : List GoString) (S : List serverInfo)
    (h : getSilencedHosts L = Except.ok H) :
    setSilencedAlerts L S =
      S.map (fun r => { r with Silenced := r.Silenced || decide (r.Hostname ∈ H) }) := by
  unfold setSilencedAlerts
  rw [h]
  apply List.map_congr_left
  intro r _
  by_cases hm : r.Hostname ∈ H
  · simp [hm]
  · simp [hm]

/-! ## The silence ledger -/

/-- Counterexample to C14 as stated: the hostname `"db01 "` ends with a blank;
`addSilencedAlert` succeeds and writes it as it is, `getSilencedHosts` trims the
line to `"db01"`, and the record whose `Hostname` is `"db01 "` is not marked. -/
theorem padded_hostname_is_not_marked :
    addSilencedAlert emptyLedger "db01 ".toList =
        Except.ok { file := some "db01 \n".toList, canRead := true, canWrite := true } ∧
      db01Padded.Hostname = "db01 ".toList ∧
      setSilencedAlerts { file := some "db01 \n".toList, canRead := true, canWrite := true }
        [db01Padded] = [db01Padded] ∧
      db01Padded.Silenced = false := by
  decide

/-- Claim C14, amended. Silence then annotate: for a ledger that can be read and
whose text is empty or ends with a line feed, and a hostname that is not empty,
has no white space at either end, no line feed and fewer than
`maxScanTokenSize` bytes, after `addSilencedAlert(h)` succeeds
`setSilencedAlerts(S)` returns a list in which every record whose `Hostname`
equals `h` has `Silenced = true`. -/
theorem silence_then_annotate (L L1 : Ledger) (h : GoString) (hosts : List GoString)
    (S : List serverInfo) (hr : L.canRead = true)
    (hh : getSilencedHosts L = Except.ok hosts) (hterm : Terminated (L.file.getD []))
    (hp : PlainHost h) (hadd : addSilencedAlert L h = Except.ok L1) :
    getSilencedHosts L1 = Except.ok (hosts ++ [h]) ∧
      ∀ r ∈ setSilencedAlerts L1 S, r.Hostname = h → r.Silenced = true := by
  have h1 := getSilencedHosts_after_add L L1 h hosts hr hh hterm hp hadd
  refine ⟨h1, ?_⟩
  intro r hr' hname
  rw [setSilencedAlerts_of_hosts L1 _ S h1] at hr'
  obtain ⟨r0, _, rfl⟩ := List.mem_map.1 hr'
  simp only at hname ⊢
  simp [hname]

/-- Witness for C14 (amended): silencing `db02` on the ledger that holds
`db01`. -/
theorem silence_then_annotate_witness :
    getSilencedHosts ledgerDb01Db02 =
        Except.ok (["db01".toList] ++ ["db02".toList]) ∧
      ∀ r ∈ setSilencedAlerts ledgerDb01Db02 [db01, db02, timeStampEntry []],
        r.Hostname = "db02".toList → r.Silenced = true :=
  silence_then_annotate ledgerDb01 ledgerDb01Db02 "db02".toList ["db01".toList]
    [db01, db02, timeStampEntry []]
    (by decide) (by decide) (by decide) (by decide) (by decide)

/-- Counterexample to C15 as stated: `db01` is a member of the ledger; after
`addSilencedAlert("db01")` and `removeSilenced(_, "db01")` the ledger is empty,
so `db01` is no longer a member. -/
theorem round_trip_drops_earlier_entry :
    getSilencedHosts ledgerDb01 = Except.ok ["db01".toList] ∧
      addSilencedAlert ledgerDb01 "db01".toList =
        Except.ok { file := some "db01\ndb01\n".toList, canRead := true, canWrite := true } ∧
      getSilencedHosts
        (removeSilenced { file := some "db01\ndb01\n".toList, canRead := true, canWrite := true }
          [] "db01".toList).2 = Except.ok [] := by
  decide

/-- Claim C15, amended. Silence round-trip: when `addSilencedAlert(h)` succeeds
and the ledger can then be read, `removeSilenced(_, h)` leaves a ledger whose
entries are the ones read after the silence with every `h` deleted, so `h` is
not a member afterwards; the membership of `h` is thus the same as before the
silence exactly when `h` was not a member then. -/
theorem silence_round_trip (L L1 : Ledger) (h : GoString) (S : List serverInfo)
    (hosts1 : List GoString) (hadd : addSilencedAlert L h = Except.ok L1)
    (h1 : getSilencedHosts L1 = Except.ok hosts1) :
    getSilencedHosts (removeSilenced L1 S h).2 =
        Except.ok (hosts1.filter (fun v => decide (v ≠ h))) ∧
      h ∉ hosts1.filter (fun v => decide (v ≠ h)) ∧
      ∀ hosts0, getSilencedHosts L = Except.ok hosts0 →
        ((h ∈ hosts1.filter (fun v => decide (v ≠ h)) ↔ h ∈ hosts0) ↔ h ∉ hosts0) := by
  have hnot : h ∉ hosts1.filter (fun v => decide (v ≠ h)) := by
    simp [List.mem_filter]
  have hflags : L1.canRead = true ∧ L1.canWrite = true := by
    unfold addSilencedAlert at hadd
    by_cases hw : L.canWrite = true
    · simp only [hw, if_true] at hadd
      cases hadd
      unfold getSilencedHosts at h1
      simp only at h1
      by_cases hr : L.canRead = true
      · exact ⟨hr, rfl⟩
      · simp [hr] at h1
    · simp [hw] at hadd
  refine ⟨removeSilenced_ledger L1 S h hosts1 hflags.1 hflags.2 h1, hnot, ?_⟩
  intro hosts0 _
  constructor
  · intro hiff h0
    exact hnot (hiff.2 h0)
  · intro h0
    exact ⟨fun hm => absurd hm hnot, fun hm => absurd hm h0⟩

/-- Witness for C15 (amended): silencing and unsilencing `db02` on the ledger
that holds `db01`. -/
theorem silence_round_trip_witness :
    getSilencedHosts (removeSilenced ledgerDb01Db02 [] "db02".toList).2 =
      Except.ok ["db01".toList] :=
  (silence_round_trip ledgerDb01 ledgerDb01Db02 "db02".toList []
    ["db01".toList, "db02".toList] (by decide) (by decide)).1.trans (by decide)

/-- Counterexample to C16 as stated: the ledger can be read but not opened for
writing; `removeSilenced(_, "db01")` logs the error and leaves the file as it
is, so `db01` is still among the entries. -/
theorem remove_keeps_read_only_ledger :
    getSilencedHosts readOnlyLedger = Except.ok ["db01".toList] ∧
      getSilencedHosts (removeSilenced readOnlyLedger [] "db01".toList).2 =
        Except.ok ["db01".toList] ∧
      ["db01".toList].filter (fun v => decide (v ≠ "db01".toList)) = [] := by
  decide

/-- Claim C16, amended. Remove is an order-preserving filter: for a ledger that
can be read and opened for writing, the entries `getSilencedHosts` returns after
`removeSilenced(_, h)` are the entries it returned before with every entry
equal to `h` deleted, the others (duplicates included) in their order. -/
theorem remove_is_filter (L : Ledger) (S : List serverInfo) (h : GoString)
    (hosts : List GoString) (hr : L.canRead = true) (hw : L.canWrite = true)
    (hh : getSilencedHosts L = Except.ok hosts) :
    getSilencedHosts (removeSilenced L S h).2 =
        Except.ok (hosts.filter (fun v => decide (v ≠ h))) ∧
      (hosts.filter (fun v => decide (v ≠ h))).Sublist hosts ∧
      ∀ v, v ≠ h → (hosts.filter (fun w => decide (w ≠ h))).count v = hosts.count v :=
  ⟨removeSilenced_ledger L S h hosts hr hw hh, List.filter_sublist _,
    fun _ hv => List.count_filter (by simpa using hv)⟩

/-- Witness for C16 (amended): removing `db01` from a ledger with a duplicate. -/
theorem remove_is_filter_witness :
    getSilencedHosts
        (removeSilenced ledgerWithDuplicates [] "db01".toList).2 =
      Except.ok ["web".toList, "web".toList] :=
  (remove_is_filter ledgerWithDuplicates [] "db01".toList
    ["db01".toList, "web".toList, "db01".toList, "web".toList]
    (by decide) (by decide) (by decide)).1.trans (by decide)

/-- Claim C17. Annotation touches only the `Silenced` flag: when the ledger
reads as the entry list `H`, `setSilencedAlerts(S)` returns the records of `S`
in order, each with every field but `Silenced` unchanged and with `Silenced`
true exactly when it was true in `S` or its `Hostname` is an entry of `H`; with
no entry, and in particular with no ledger file, `S` is returned unchanged. -/
theorem annotation_frame (L : Ledger) (H : List GoString) (S : List serverInfo)
    (h : getSilencedHosts L = Except.ok H) :
    (setSilencedAlerts L S).length = S.length ∧
    List.Forall₂ (fun r out =>
        out.Account = r.Account ∧ out.Hostname = r.Hostname ∧ out.Location = r.Location ∧
        out.Prom = r.Prom ∧ out.Time = r.Time ∧ out.Service = r.Service ∧
        out.UID = r.UID ∧
        (out.Silenced = true ↔ (r.Silenced = true ∨ r.Hostname ∈ H)))
      S (setSilencedAlerts L S) ∧
    (∀ r ∈ S, r.Silenced = false →
      ∀ out ∈ setSilencedAlerts L [r], (out.Silenced = true ↔ r.Hostname ∈ H)) ∧
    (H = [] → setSilencedAlerts L S = S) ∧
    (L.file = none → H = [] ∧ setSilencedAlerts L S = S) := by
  have hmap := setSilencedAlerts_of_hosts L H S h
  have hnil : H = [] → setSilencedAlerts L S = S := by
    intro hH
    rw [hmap, hH]
    simp
  refine ⟨by rw [hmap, List.length_map], ?_, ?_, hnil, ?_⟩
  · rw [hmap, List.forall₂_map_right_iff]
    apply List.forall₂_same.2
    intro r _
    simp
  · intro r _ hs out hout
    rw [setSilencedAlerts_of_hosts L H [r] h] at hout
    simp only [List.map_cons, List.map_nil, List.mem_singleton] at hout
    rw [hout]
    simp [hs]
  · intro hf
    have hH : H = [] := by
      unfold getSilencedHosts at h
      rw [hf] at h
      cases h
      rfl
    exact ⟨hH, hnil hH⟩

/-- Witness for C17: the ledger that holds `db01`, on a list with `db01` and
`db02`. -/
theorem annotation_frame_witness :
    setSilencedAlerts ledgerDb01 [db01, db02] = [{ db01 with Silenced := true }, db02] ∧
      (setSilencedAlerts ledgerDb01 [db01, db02]).length = [db01, db02].length :=
  ⟨by decide, (annotation_frame ledgerDb01 ["db01".toList] [db01, db02] (by decide)).1⟩

/-- Evaluation of the store on a sequence of calls: each `Get` sees the last
`Set`. -/
theorem store_sequential_contract_witness :
    (runCalls NewAlertStore
        [StoreCall.get, StoreCall.set [db01] 1, StoreCall.get, StoreCall.get,
         StoreCall.set [db02] 2, StoreCall.get]).2 = [[], [db01], [db01], [db02]] :=
  (store_sequential_contract _).1.trans (by decide)

/-! ## Auxiliary facts about the ordering -/

theorem strLt_asymm (a b : GoString) (h : strLt a b = true) : strLt b a = false := by
  cases hc : strLt b a
  · rfl
  · have := strLt_trans a b a h hc
    rw [strLt_irrefl] at this
    exact absurd this (by simp)

theorem itemLess_irrefl (a : item) : itemLess a a = false := by
  simp [itemLess, strLt_irrefl]

theorem itemLess_trans (a b c : item) (hab : itemLess a b = true) (hbc : itemLess b c = true) :
    itemLess a c = true := by
  unfold itemLess at hab hbc ⊢
  by_cases h1 : a.Time = b.Time
  · by_cases h2 : b.Time = c.Time
    · have h3 : a.Time = c.Time := h1.trans h2
      simp only [h1, h2, h3, if_true] at hab hbc ⊢
      exact strLt_trans _ _ _ hab hbc
    · have h3 : ¬ a.Time = c.Time := fun e => h2 (h1.symm.trans e)
      simp only [h1, h2, h3, if_true, if_false] at hab hbc ⊢
      exact hbc
  · by_cases h2 : b.Time = c.Time
    · have h3 : ¬ a.Time = c.Time := fun e => h1 (e.trans h2.symm)
      simp only [h1, h2, h3, if_true, if_false] at hab hbc ⊢
      exact hab
    · simp only [h1, h2, if_false] at hab hbc
      have hac := strLt_trans _ _ _ hab hbc
      by_cases h3 : a.Time = c.Time
      · rw [h3] at hab
        have := strLt_asymm _ _ hab
        rw [this] at hbc
        exact absurd hbc (by simp)
      · simp only [h3, if_false]
        exact hac

theorem itemLess_asymm (a b : item) (h : itemLess a b = true) : itemLess b a = false := by
  cases hc : itemLess b a
  · rfl
  · have := itemLess_trans a b a h hc
    rw [itemLess_irrefl] at this
    exact absurd this (by simp)

theorem itemLess_total (a b : item) (hab : itemLess a b = false) (hba : itemLess b a = false) :
    a = b := by
  unfold itemLess at hab hba
  obtain ⟨ka, ta⟩ := a
  obtain ⟨kb, tb⟩ := b
  simp only at hab hba
  by_cases h1 : ta = tb
  · subst h1
    simp only [if_true] at hab hba
    rw [strLt_antisymm ka kb hab hba]
  · have h2 : ¬ tb = ta := fun e => h1 e.symm
    simp only [h1, h2, if_false] at hab hba
    exact absurd (strLt_antisymm ta tb hab hba) h1

theorem insertItem_perm (x : item) (l : List item) : (insertItem x l).Perm (x :: l) := by
  induction l with
  | nil => exact List.Perm.refl _
  | cons y ys ih =>
    unfold insertItem
    by_cases h : itemLess x y = true
    · rw [if_pos h]
    · rw [if_neg h]
      exact (List.Perm.cons y ih).trans (List.Perm.swap x y ys)

theorem sortSlice_perm (l : List item) : (sortSlice l).Perm l := by
  induction l with
  | nil => exact List.Perm.refl _
  | cons x xs ih =>
    unfold sortSlice at ih ⊢
    rw [List.foldr_cons]
    exact (insertItem_perm x _).trans (List.Perm.cons x ih)

theorem insertItem_sorted (x : item) (l : List item)
    (h : l.Pairwise (fun a b => itemLess b a = false)) :
    (insertItem x l).Pairwise (fun a b => itemLess b a = false) := by
  induction l with
  | nil => simp [insertItem]
  | cons y ys ih =>
    rw [List.pairwise_cons] at h
    unfold insertItem
    by_cases hxy : itemLess x y = true
    · rw [if_pos hxy]
      refine List.pairwise_cons.2 ⟨?_, List.pairwise_cons.2 h⟩
      intro z hz
      rcases List.mem_cons.1 hz with e | e
      · rw [e]; exact itemLess_asymm x y hxy
      · cases hc : itemLess z x
        · rfl
        · have := itemLess_trans z x y hc hxy
          rw [h.1 z e] at this
          exact absurd this (by simp)
    · rw [if_neg hxy]
      refine List.pairwise_cons.2 ⟨?_, ih h.2⟩
      intro z hz
      rcases List.mem_cons.1 ((insertItem_perm x ys).subset hz) with e | e
      · rw [e]; simpa using hxy
      · exact h.1 z e

theorem sortSlice_sorted (l : List item) :
    (sortSlice l).Pairwise (fun a b => itemLess b a = false) := by
  induction l with
  | nil => exact List.Pairwise.nil
  | cons x xs ih =>
    unfold sortSlice at ih ⊢
    rw [List.foldr_cons]
    exact insertItem_sorted x _ ih

theorem sortSlice_strict (l : List item) (hnd : l.Nodup) :
    (sortSlice l).Pairwise (fun a b => itemLess a b = true) := by
  have h1 := sortSlice_sorted l
  have h2 : (sortSlice l).Nodup := (sortSlice_perm l).nodup_iff.2 hnd
  refine (h1.and h2).imp ?_
  intro a b hab
  cases hc : itemLess a b
  · exact absurd (itemLess_total a b hc hab.1) hab.2
  · rfl

theorem sorted_unique (l1 l2 : List item) (hp : l1.Perm l2)
    (h1 : l1.Pairwise (fun a b => itemLess a b = true))
    (h2 : l2.Pairwise (fun a b => itemLess a b = true)) : l1 = l2 := by
  haveI : IsAntisymm item (fun a b => itemLess a b = true) :=
    ⟨fun a b hab hba => by
      rw [itemLess_asymm a b hab] at hba
      exact absurd hba (by simp)⟩
  exact List.eq_of_perm_of_sorted hp h1 h2

theorem sortSlice_unique (l s : List item) (hnd : l.Nodup) (hp : s.Perm l)
    (hs : s.Pairwise (fun a b => itemLess a b = true)) : s = sortSlice l :=
  sorted_unique s (sortSlice l) (hp.trans (sortSlice_perm l).symm) hs (sortSlice_strict l hnd)

theorem recordBefore_iff (a b : serverInfo) :
    recordBefore a b ↔ itemLess (keyOf a) (keyOf b) = true := by
  unfold recordBefore itemLess keyOf
  by_cases h : a.Time = b.Time
  · simp [h, strLt_irrefl]
  · simp [h]

theorem mapGet_of_mem (m : ServerMap) (hnd : (m.map Prod.fst).Nodup) (k : GoString)
    (v : serverInfo) (h : (k, v) ∈ m) : mapGet m k = some v := by
  induction m with
  | nil => simp at h
  | cons kv rest ih =>
    obtain ⟨k0, v0⟩ := kv
    simp only [List.map_cons, List.nodup_cons] at hnd
    rcases List.mem_cons.1 h with e | e
    · cases e
      simp [mapGet]
    · have hk : k0 ≠ k := by
        intro e2
        apply hnd.1
        rw [e2]
        exact List.mem_map_of_mem Prod.fst e
      simp only [mapGet, hk, if_false]
      exact ih hnd.2 e

theorem mem_of_mapGet (m : ServerMap) (k : GoString) (v : serverInfo)
    (h : mapGet m k = some v) : (k, v) ∈ m := by
  induction m with
  | nil => simp [mapGet] at h
  | cons kv rest ih =>
    obtain ⟨k0, v0⟩ := kv
    by_cases hk : k0 = k
    · simp only [mapGet, hk, if_true, Option.some.injEq] at h
      rw [hk, h]
      exact List.mem_cons_self _ _
    · simp only [mapGet, hk, if_false] at h
      exact List.mem_cons_of_mem _ (ih h)

theorem sortServerList_eq (m : ServerMap) (hnd : (m.map Prod.fst).Nodup) :
    sortServerList m =
      (sortSlice (itemsOf m)).map (fun k => (mapGet m k.Key).getD serverInfo.zero) := by
  unfold sortServerList itemsOf
  simp only []
  congr 2
  apply List.map_congr_left
  intro kv hkv
  rw [mapGet_of_mem m hnd kv.1 kv.2 hkv]
  rfl

theorem itemsOf_nodup (m : ServerMap) (hnd : (m.map Prod.fst).Nodup) : (itemsOf m).Nodup := by
  apply List.Nodup.of_map item.Key
  unfold itemsOf
  rw [List.map_map]
  exact hnd

theorem mem_itemsOf (m : ServerMap) (hnd : (m.map Prod.fst).Nodup) (it : item) :
    it ∈ itemsOf m ↔ ∃ r, mapGet m it.Key = some r ∧ r.Time = it.Time := by
  unfold itemsOf
  constructor
  · intro h
    obtain ⟨kv, hkv, rfl⟩ := List.mem_map.1 h
    exact ⟨kv.2, mapGet_of_mem m hnd kv.1 kv.2 hkv, rfl⟩
  · rintro ⟨r, hr, ht⟩
    refine List.mem_map.2 ⟨(it.Key, r), mem_of_mapGet m _ _ hr, ?_⟩
    obtain ⟨k, t⟩ := it
    simp only at ht
    simp [ht]

theorem sortServerList_perm (m : ServerMap) (hnd : (m.map Prod.fst).Nodup) :
    (sortServerList m).Perm (m.map Prod.snd) := by
  rw [sortServerList_eq m hnd]
  refine ((sortSlice_perm (itemsOf m)).map _).trans ?_
  unfold itemsOf
  rw [List.map_map]
  apply List.Perm.of_eq
  apply List.map_congr_left
  intro kv hkv
  simp only [Function.comp]
  rw [mapGet_of_mem m hnd kv.1 kv.2 hkv]
  rfl

theorem sortServerList_sorted (m : ServerMap) (hm : WellKeyed m) :
    (sortServerList m).Pairwise recordBefore := by
  rw [sortServerList_eq m hm.1, List.pairwise_map]
  refine (sortSlice_strict (itemsOf m) (itemsOf_nodup m hm.1)).imp_of_mem ?_
  intro a b ha hb hab
  have ha' := (sortSlice_perm (itemsOf m)).subset ha
  have hb' := (sortSlice_perm (itemsOf m)).subset hb
  obtain ⟨ra, hra, hta⟩ := (mem_itemsOf m hm.1 a).1 ha'
  obtain ⟨rb, hrb, htb⟩ := (mem_itemsOf m hm.1 b).1 hb'
  have hua : ra.UID = a.Key := hm.2 _ (mem_of_mapGet m _ _ hra)
  have hub : rb.UID = b.Key := hm.2 _ (mem_of_mapGet m _ _ hrb)
  rw [hra, hrb, recordBefore_iff]
  simp only [Option.getD_some, keyOf, hua, hub, hta, htb]
  exact hab

theorem mapGet_perm (m m' : ServerMap) (hp : m'.Perm m) (hnd : (m.map Prod.fst).Nodup)
    (k : GoString) : mapGet m' k = mapGet m k := by
  have hnd' : (m'.map Prod.fst).Nodup := (hp.map Prod.fst).nodup_iff.2 hnd
  cases h : mapGet m k with
  | some v => exact mapGet_of_mem m' hnd' k v (hp.symm.subset (mem_of_mapGet m k v h))
  | none =>
    cases h' : mapGet m' k with
    | none => rfl
    | some v' =>
      have := mapGet_of_mem m hnd k v' (hp.subset (mem_of_mapGet m' k v' h'))
      rw [h] at this
      exact absurd this (by simp)

theorem sortServerList_perm_invariant (m m' : ServerMap) (hp : m'.Perm m)
    (hnd : (m.map Prod.fst).Nodup) : sortServerList m' = sortServerList m := by
  have hnd' : (m'.map Prod.fst).Nodup := (hp.map Prod.fst).nodup_iff.2 hnd
  rw [sortServerList_eq m hnd, sortServerList_eq m' hnd']
  have hitems : sortSlice (itemsOf m') = sortSlice (itemsOf m) :=
    sortSlice_unique (itemsOf m) _ (itemsOf_nodup m hnd)
      ((sortSlice_perm _).trans (hp.map _)) (sortSlice_strict _ (itemsOf_nodup m' hnd'))
  rw [hitems]
  apply List.map_congr_left
  intro k _
  rw [mapGet_perm m m' hp hnd]

theorem recordBefore_trans (a b c : serverInfo) (hab : recordBefore a b)
    (hbc : recordBefore b c) : recordBefore a c := by
  rw [recordBefore_iff] at hab hbc ⊢
  exact itemLess_trans _ _ _ hab hbc

theorem recordBefore_asymm (a b : serverInfo) (hab : recordBefore a b) :
    ¬ recordBefore b a := by
  rw [recordBefore_iff] at hab ⊢
  rw [itemLess_asymm _ _ hab]
  simp

theorem sortServerList_unique (m : ServerMap) (hm : WellKeyed m) (l : List serverInfo)
    (hp : l.Perm (m.map Prod.snd)) (hc : l.Chain' recordBefore) : l = sortServerList m := by
  haveI : IsTrans serverInfo recordBefore := ⟨recordBefore_trans⟩
  haveI : IsAntisymm serverInfo recordBefore :=
    ⟨fun a b hab hba => absurd hba (recordBefore_asymm a b hab)⟩
  exact List.eq_of_perm_of_sorted (hp.trans (sortServerList_perm m hm.1).symm)
    (List.chain'_iff_pairwise.1 hc) (sortServerList_sorted m hm)

theorem mapSet_keys (m : ServerMap) (k : GoString) (v : serverInfo) :
    (mapSet m k v).map Prod.fst =
      if k ∈ m.map Prod.fst then m.map Prod.fst else m.map Prod.fst ++ [k] := by
  induction m with
  | nil => simp [mapSet]
  | cons kv rest ih =>
    obtain ⟨k0, v0⟩ := kv
    by_cases hk : k0 = k
    · subst hk
      rw [mapSet, if_pos rfl]
      simp only [List.map_cons]
      rw [if_pos (List.mem_cons_self _ _)]
    · have hk' : ¬ k = k0 := fun e => hk e.symm
      simp only [mapSet, hk, if_false, List.map_cons, ih, List.mem_cons, hk', false_or]
      by_cases hm : k ∈ rest.map Prod.fst
      · simp [hm]
      · simp [hm]

theorem mapSet_keys_nodup (m : ServerMap) (k : GoString) (v : serverInfo)
    (h : (m.map Prod.fst).Nodup) : ((mapSet m k v).map Prod.fst).Nodup := by
  rw [mapSet_keys]
  by_cases hm : k ∈ m.map Prod.fst
  · rw [if_pos hm]; exact h
  · rw [if_neg hm]
    exact List.nodup_append.2 ⟨h, List.nodup_singleton k, by
      intro x hx hx'
      rw [List.mem_singleton.1 hx'] at hx
      exact hm hx⟩

theorem mergeItem_keys_nodup (m : ServerMap) (vv : JSONObject)
    (h : (m.map Prod.fst).Nodup) : ((mergeItem m vv).map Prod.fst).Nodup := by
  rw [mergeItem_eq]
  cases alertOf vv with
  | none => exact h
  | some a => exact mapSet_keys_nodup m _ _ h

theorem jsonToStruct_keys_nodup (P : List (List JSONObject)) :
    ((jsonToStruct P).map Prod.fst).Nodup := by
  rw [jsonToStruct_eq_foldl]
  have key : ∀ (items : List JSONObject) (m : ServerMap), (m.map Prod.fst).Nodup →
      ((items.foldl mergeItem m).map Prod.fst).Nodup := by
    intro items
    induction items with
    | nil => intro m hm; exact hm
    | cons vv rest ih => intro m hm; exact ih _ (mergeItem_keys_nodup m vv hm)
  exact key _ [] List.nodup_nil

theorem mem_alertsFor_uid (P : List (List JSONObject)) (u : GoString) (a : Alert)
    (h : a ∈ alertsFor P u) : a.uid = u := by
  simp only [alertsFor, List.mem_filter, decide_eq_true_eq] at h
  exact h.2

theorem newRecord_uid (a : Alert) : (newRecord a).UID = a.uid := by
  unfold newRecord; split <;> rfl

theorem jsonToStruct_record_uid (P : List (List JSONObject)) (u : GoString) (r : serverInfo)
    (h : mapGet (jsonToStruct P) u = some r) : r.UID = u := by
  rw [mapGet_jsonToStruct] at h
  cases hal : alertsFor P u with
  | nil => rw [hal] at h; simp [recordOf] at h
  | cons a rest =>
    rw [hal, recordOf_cons] at h
    cases h
    rw [(foldl_updateRecord_fields rest (newRecord a)).2.2.2.2.1, newRecord_uid]
    exact mem_alertsFor_uid P u a (hal ▸ List.mem_cons_self _ _)

theorem jsonToStruct_wellKeyed (P : List (List JSONObject)) : WellKeyed (jsonToStruct P) := by
  refine ⟨jsonToStruct_keys_nodup P, ?_⟩
  intro kv hkv
  exact jsonToStruct_record_uid P kv.1 kv.2
    (mapGet_of_mem _ (jsonToStruct_keys_nodup P) kv.1 kv.2 hkv)

theorem sortServerList_uids (m : ServerMap) (hm : WellKeyed m) :
    ((sortServerList m).map serverInfo.UID).Perm (m.map Prod.fst) := by
  have e : (m.map Prod.snd).map serverInfo.UID = m.map Prod.fst := by
    rw [List.map_map]
    apply List.map_congr_left
    intro kv hkv
    exact hm.2 kv hkv
  rw [← e]
  exact (sortServerList_perm m hm.1).map serverInfo.UID

theorem mem_keys_jsonToStruct (P : List (List JSONObject)) (u : GoString)
    (h : u ∈ (jsonToStruct P).map Prod.fst) : ∃ a ∈ alerts P, a.uid = u := by
  obtain ⟨kv, hkv, rfl⟩ := List.mem_map.1 h
  have hg := mapGet_of_mem _ (jsonToStruct_keys_nodup P) kv.1 kv.2 hkv
  rw [mapGet_jsonToStruct] at hg
  cases hal : alertsFor P kv.1 with
  | nil => rw [hal] at hg; simp [recordOf] at hg
  | cons a rest =>
    have hmem : a ∈ alertsFor P kv.1 := hal ▸ List.mem_cons_self _ _
    exact ⟨a, (List.mem_filter.1 hmem).1, mem_alertsFor_uid P _ a hmem⟩

/-! ## Ordering and the published snapshot -/

/-- Claim C12. Ordering: for a map whose keys are distinct and whose records are
stored under their own UID, `sortServerList` returns every record of the map
once and nothing else; of two consecutive output records the first has the
lexically smaller `Time`, or the same `Time` and the smaller `UID`; the output
is the only arrangement of the records with that property and is the same for
every order in which the map is traversed. -/
theorem sortServerList_ordering (m : ServerMap) (hm : WellKeyed m) :
    (sortServerList m).Perm (m.map Prod.snd) ∧
    (sortServerList m).Chain' recordBefore ∧
    (∀ l : List serverInfo, l.Perm (m.map Prod.snd) → l.Chain' recordBefore →
      l = sortServerList m) ∧
    (∀ m' : ServerMap, m'.Perm m → sortServerList m' = sortServerList m) :=
  ⟨sortServerList_perm m hm.1, (sortServerList_sorted m hm).chain',
    fun l hp hc => sortServerList_unique m hm l hp hc,
    fun m' hp => sortServerList_perm_invariant m m' hp hm.1⟩

/-- Witness for C12: three records stored out of order; two of them have the
same `Time` and come out by UID. -/
theorem sortServerList_ordering_witness :
    sortServerList sampleMap = [db01, { db01 with UID := "u3".toList }, db02] ∧
      (sortServerList sampleMap).Chain' recordBefore :=
  ⟨by decide, (sortServerList_ordering sampleMap (by decide)).2.1⟩

/-- Counterexample to C13 as stated: an alert whose `uniq_id` is `"TS"` gives a
record with UID `"TS"`, and the snapshot then holds it next to the sentinel. -/
theorem reserved_uid_collides_with_sentinel :
    (checkUpdate "12:00:00".toList reservedUidPayload).map serverInfo.UID = [TS, TS] ∧
      ¬ ((checkUpdate "12:00:00".toList reservedUidPayload).map serverInfo.UID).Nodup := by
  decide

/-- Claim C13, amended. UID uniqueness within a snapshot: for every payload list
`P` the records `sortServerList(jsonToStruct(P))` never share a UID, and when no
alert item of `P` has the `uniq_id` `"TS"` the published snapshot, these records
followed by the sentinel, contains no two records with the same UID. -/
theorem snapshot_uids_nodup (timeString : GoString) (P : List (List JSONObject)) :
    ((sortServerList (jsonToStruct P)).map serverInfo.UID).Nodup ∧
      ((∀ a ∈ alerts P, a.uid ≠ TS) →
        ((checkUpdate timeString P).map serverInfo.UID).Nodup) := by
  have hperm := sortServerList_uids (jsonToStruct P) (jsonToStruct_wellKeyed P)
  have hnd : ((sortServerList (jsonToStruct P)).map serverInfo.UID).Nodup :=
    hperm.nodup_iff.2 (jsonToStruct_keys_nodup P)
  refine ⟨hnd, ?_⟩
  intro hno
  have hsnap : (checkUpdate timeString P).map serverInfo.UID =
      (sortServerList (jsonToStruct P)).map serverInfo.UID ++ [TS] := by
    simp [checkUpdate, timeStampEntry]
  rw [hsnap]
  refine List.nodup_append.2 ⟨hnd, List.nodup_singleton TS, ?_⟩
  intro x hx hx'
  rw [List.mem_singleton.1 hx'] at hx
  obtain ⟨a, ha, hau⟩ := mem_keys_jsonToStruct P TS (hperm.subset hx)
  exact hno a ha hau

/-- Witness for C13 (amended): the merged records of the payload with the
reserved UID, where the hypothesis on `"TS"` fails, and the whole snapshot of
the merge scenario, where it holds. -/
theorem snapshot_uids_nodup_witness :
    ((sortServerList (jsonToStruct reservedUidPayload)).map serverInfo.UID).Nodup ∧
      ((checkUpdate "12:00:00".toList scenarioPayload).map serverInfo.UID).Nodup :=
  ⟨(snapshot_uids_nodup "12:00:00".toList reservedUidPayload).1,
    (snapshot_uids_nodup "12:00:00".toList scenarioPayload).2 (by
      intro a ha
      have hall : (alerts scenarioPayload).map Alert.uid = ["abc".toList, "abc".toList] := by
        decide
      have hmem : a.uid ∈ (alerts scenarioPayload).map Alert.uid := List.mem_map_of_mem _ ha
      rw [hall] at hmem
      intro e
      rw [e] at hmem
      revert hmem
      decide)⟩

/-! ## Independence from the order of the source responses -/

theorem alertsFor_perm (P P' : List (List JSONObject)) (h : P'.flatten.Perm P.flatten)
    (u : GoString) : (alertsFor P' u).Perm (alertsFor P u) := by
  unfold alertsFor alerts
  exact (h.filterMap alertOf).filter _

theorem record_time_service (a : Alert) (rest : List Alert) (b : Alert) (rest' : List Alert)
    (hp : (b :: rest').Perm (a :: rest)) :
    (rest'.foldl updateRecord (newRecord b)).Time = (rest.foldl updateRecord (newRecord a)).Time ∧
      ∀ n, n ∈ (rest'.foldl updateRecord (newRecord b)).Service ↔
        n ∈ (rest.foldl updateRecord (newRecord a)).Service := by
  obtain ⟨hmem, hle⟩ := record_time_least a rest
  obtain ⟨hmem', hle'⟩ := record_time_least b rest'
  have hpt := hp.map Alert.timeStamp
  have hpn := hp.map Alert.alertName
  refine ⟨strLt_antisymm _ _ (hle _ (hpt.subset hmem')) (hle' _ (hpt.symm.subset hmem)), ?_⟩
  intro n
  rw [recordOf_service, recordOf_service, mem_firstOccurrences, mem_firstOccurrences]
  exact hpn.mem_iff

theorem merged_record_perm (P P' : List (List JSONObject)) (h : P'.flatten.Perm P.flatten)
    (u : GoString) (r : serverInfo) (hr : mapGet (jsonToStruct P) u = some r) :
    ∃ r', mapGet (jsonToStruct P') u = some r' ∧ r'.UID = r.UID ∧ r'.Time = r.Time ∧
      ∀ n, n ∈ r'.Service ↔ n ∈ r.Service := by
  have hp := alertsFor_perm P P' h u
  have huid := jsonToStruct_record_uid P u r hr
  rw [mapGet_jsonToStruct] at hr
  cases hal : alertsFor P u with
  | nil => rw [hal] at hr; simp [recordOf] at hr
  | cons a rest =>
    rw [hal, recordOf_cons] at hr
    cases hr
    cases hal' : alertsFor P' u with
    | nil =>
      rw [hal, hal'] at hp
      exact absurd hp.length_eq (by simp)
    | cons b rest' =>
      rw [hal, hal'] at hp
      have hg := mapGet_of_alertsFor P' u b rest' hal'
      obtain ⟨ht, hs⟩ := record_time_service a rest b rest' hp
      exact ⟨_, hg, (jsonToStruct_record_uid P' u _ hg).trans huid.symm, ht, hs⟩

theorem itemsOf_jsonToStruct_perm (P P' : List (List JSONObject))
    (h : P'.flatten.Perm P.flatten) :
    (itemsOf (jsonToStruct P')).Perm (itemsOf (jsonToStruct P)) := by
  have hnd := jsonToStruct_keys_nodup P
  have hnd' := jsonToStruct_keys_nodup P'
  refine (List.perm_ext_iff_of_nodup (itemsOf_nodup _ hnd') (itemsOf_nodup _ hnd)).2 ?_
  intro it
  rw [mem_itemsOf _ hnd', mem_itemsOf _ hnd]
  constructor
  · rintro ⟨r', hr', ht'⟩
    obtain ⟨r, hr, _, ht, _⟩ := merged_record_perm P' P h.symm it.Key r' hr'
    exact ⟨r, hr, ht.trans ht'⟩
  · rintro ⟨r, hr, ht⟩
    obtain ⟨r', hr', _, ht', _⟩ := merged_record_perm P P' h it.Key r hr
    exact ⟨r', hr', ht'.trans ht⟩

theorem sorted_records_perm (P P' : List (List JSONObject)) (h : P'.flatten.Perm P.flatten) :
    List.Forall₂ (fun a b => a.UID = b.UID ∧ a.Time = b.Time ∧
        ∀ n, n ∈ a.Service ↔ n ∈ b.Service)
      (sortServerList (jsonToStruct P')) (sortServerList (jsonToStruct P)) := by
  have hnd := jsonToStruct_keys_nodup P
  have hnd' := jsonToStruct_keys_nodup P'
  have hitems : sortSlice (itemsOf (jsonToStruct P')) = sortSlice (itemsOf (jsonToStruct P)) :=
    sortSlice_unique _ _ (itemsOf_nodup _ hnd)
      ((sortSlice_perm _).trans (itemsOf_jsonToStruct_perm P P' h))
      (sortSlice_strict _ (itemsOf_nodup _ hnd'))
  rw [sortServerList_eq _ hnd, sortServerList_eq _ hnd', hitems,
    List.forall₂_map_left_iff, List.forall₂_map_right_iff]
  apply List.forall₂_same.2
  intro it hit
  obtain ⟨r, hr, _⟩ := (mem_itemsOf _ hnd it).1 ((sortSlice_perm _).subset hit)
  obtain ⟨r', hr', hu, ht, hs⟩ := merged_record_perm P P' h it.Key r hr
  rw [hr, hr']
  exact ⟨hu, ht, hs⟩

/-- Claim C20. Independence from source response order: when `P'` holds the
items of `P` in another order (payloads permuted, items permuted within them),
`sortServerList(jsonToStruct(P'))` and `sortServerList(jsonToStruct(P))` have
the same length and, position by position, records with the same UID, the same
`Time` and the same set of `Service` names; so the sequences of (UID, Time)
pairs are equal. -/
theorem response_order_independence (P P' : List (List JSONObject))
    (h : P'.flatten.Perm P.flatten) :
    (sortServerList (jsonToStruct P')).length = (sortServerList (jsonToStruct P)).length ∧
    (sortServerList (jsonToStruct P')).map (fun r => (r.UID, r.Time)) =
      (sortServerList (jsonToStruct P)).map (fun r => (r.UID, r.Time)) ∧
    List.Forall₂ (fun a b => a.UID = b.UID ∧ a.Time = b.Time ∧
        ∀ n, n ∈ a.Service ↔ n ∈ b.Service)
      (sortServerList (jsonToStruct P')) (sortServerList (jsonToStruct P)) := by
  have hf := sorted_records_perm P P' h
  refine ⟨hf.length_eq, ?_, hf⟩
  generalize sortServerList (jsonToStruct P') = l' at hf
  generalize sortServerList (jsonToStruct P) = l at hf
  induction hf with
  | nil => rfl
  | cons hab _ ih => simp [hab.1, hab.2.1, ih]

/-- Witness for C20: the merge scenario with its two sources swapped gives the
same UID and `Time`; the `Service` names come in the other order. -/
theorem response_order_independence_witness :
    (sortServerList (jsonToStruct scenarioPayloadSwapped)).map (fun r => (r.UID, r.Time)) =
        [("abc".toList, "2024-01-01 09:00:00".toList)] ∧
      (sortServerList (jsonToStruct scenarioPayload)).map (fun r => (r.UID, r.Time)) =
        [("abc".toList, "2024-01-01 09:00:00".toList)] ∧
      (sortServerList (jsonToStruct scenarioPayloadSwapped)).map serverInfo.Service =
        [["cpu-high".toList, "disk-full".toList]] ∧
      (sortServerList (jsonToStruct scenarioPayload)).map serverInfo.Service =
        [["disk-full".toList, "cpu-high".toList]] := by
  have h := (response_order_independence scenarioPayload scenarioPayloadSwapped
    (List.Perm.swap _ _ [])).2.1
  have h0 : (sortServerList (jsonToStruct scenarioPayload)).map (fun r => (r.UID, r.Time)) =
      [("abc".toList, "2024-01-01 09:00:00".toList)] := by decide
  exact ⟨h.trans h0, h0, by decide, by decide⟩

end Prometheos
